import Mathlib

/-!
# Shallow embedding of the `comrade` trigger pipeline

This file embeds the core of the `comrade` repository (the per-file log
tailer in `src/comrade/src/watcher.rs`, the trigger runtime in
`src/comrade/src/triggers.rs`, the configuration/trigger compiler in
`src/comrade/src/config/triggers.rs` and the driver in
`src/comrade/src/driver.rs`) into Lean 4, and proves or refutes the
frozen claims about it.

Modelling conventions:

* Rust `String`/`&str` values that are scanned character by character
  (log lines, regex captures, templates) are `List Char`; opaque
  identifiers stay `String`.
* `std::time::Instant` and `std::time::Duration` are natural numbers
  (an abstract monotone clock).  `Instant::duration_since` saturates at
  zero exactly like truncated subtraction on `Nat`.
* `chrono::NaiveDateTime` is abstracted to `Nat`; chrono's
  `parse_from_str` (an external crate) is a parameter
  `pd : List Char → Option Nat`, and `Local::now().naive_local()` a
  parameter `nd : Nat`.
* The `regex` crate is external: a compiled `Regex` is modelled
  extensionally by its `captures` function, and `Regex::new` by an
  abstract `RegexEngine.compile` parameter.  The fixed wire-format
  regex `RAW_LINE_RE` is implemented concretely (see `parse_raw_line`).
* Rust `HashMap`/`BTreeMap` values are association lists.
* Channels: the bounded crossbeam event bus is a `Bus` (queue, capacity,
  connected flag); `Sender::send` delivers when there is room, returns
  an error only when the channel is disconnected, and otherwise blocks
  the sending thread, which we record as the `SendOutcome.blocked`
  outcome of one send attempt.
-/

namespace Comrade

/-- Rust strings processed character by character. -/
abbrev Chars := List Char

/-- `std::time::Instant`, abstracted to a natural number. -/
abbrev Instant := Nat

/-- `std::time::Duration`, abstracted to a natural number. -/
abbrev Duration := Nat

/-- `CharacterId` (a newtype over `String` in `config/mod.rs`). -/
abbrev CharacterId := String

/-- Lookup in an association list (Rust `HashMap::get` / `BTreeMap::get`). -/
def alistGet {κ α : Type} [DecidableEq κ] : List (κ × α) → κ → Option α
  | [], _ => none
  | (k', v) :: rest, k => if k' = k then some v else alistGet rest k

/-- `map.entry(k).or_insert_with(Vec::new).push(v)` on an association
list of vectors: append `v` to the entry of `k`, inserting it first when
absent. -/
def alistPush {κ α : Type} [DecidableEq κ] : List (κ × List α) → κ → α → List (κ × List α)
  | [], k, v => [(k, [v])]
  | (k', l) :: rest, k, v =>
      if k' = k then (k', l ++ [v]) :: rest else (k', l) :: alistPush rest k v

/-! ## Configuration data model (`config/mod.rs`, `config/triggers.rs`) -/

/-- `config::triggers::TriggerSource`. -/
inductive TriggerSource
  | Local
  | Remote (s : String)
deriving DecidableEq, Repr

/-- `config::triggers::TriggerRef`: `(source, trigger id)`. -/
structure TriggerRef where
  source : TriggerSource
  id : String
deriving DecidableEq, Repr

/-- `config::triggers::Action` (imported into `triggers.rs` as
`TriggerAction`): a declarative action template. -/
inductive TriggerAction
  | DisplayText (text : Chars) (delay : Option Duration)
  | Countdown (text : Chars) (duration : Duration) (delay : Option Duration)
deriving DecidableEq, Repr

/-- `config::triggers::Trigger`: a declarative trigger definition. -/
structure Trigger where
  name : String
  comment : String
  search_text : Chars
  actions : List TriggerAction
deriving DecidableEq, Repr

/-- `config::Character`.  The snapshot's `config/mod.rs` has
`name`/`server`/`filename`; the `disabled_triggers` map is the field
consulted by `config/triggers.rs` (`character.disabled_triggers
.contains_key(...)`) and declared in the spec's data model; we model it
as the list of disabled trigger references. -/
structure Character where
  name : String
  server : String
  filename : String
  disabled_triggers : List TriggerRef
deriving DecidableEq, Repr

/-- `watcher::LogEvent`: one admitted log line. -/
structure LogEvent where
  id : String
  date : Nat
  message : Chars
deriving DecidableEq, Repr

/-! ## Regex abstraction

The `regex` crate is an external collaborator.  A compiled regex is
modelled extensionally by its `captures` function; capture group `0` is
the whole match. -/

/-- The capture groups of one regex match (`regex::Captures`), group 0
being the whole match and unmatched groups `none`. -/
abbrev Captures := List (Option Chars)

/-- Group lookup, as used by template expansion: an absent or unmatched
group expands to the empty string (the `regex` crate's `expand`
behaviour). -/
def Captures.group (caps : Captures) (i : Nat) : Chars :=
  ((caps.get? i).join).getD []

/-- A compiled regular expression (`regex::Regex`), modelled by its
`captures` function. -/
structure CRegex where
  captures : Chars → Option Captures

/-- The regex compiler `regex::Regex::new`, an abstract parameter
(`none` models a compilation error). -/
structure RegexEngine where
  compile : Chars → Option CRegex

/-- State machine for `regex::Captures::expand`, covering the `$$`
escape and numbered `$digits` group references (the subset the claims
exercise); `inGroup n` holds the group number read so far. -/
inductive ExpandMode
  | normal
  | sawDollar
  | inGroup (n : Nat)

/-- One pass of `regex::Captures::expand` over a template
(modelled subset: `$$` and `$digits`). -/
def expandGo (caps : Captures) : ExpandMode → Chars → Chars
  | .normal, [] => []
  | .sawDollar, [] => ['$']
  | .inGroup n, [] => caps.group n
  | .normal, c :: rest =>
      if c = '$' then expandGo caps .sawDollar rest
      else c :: expandGo caps .normal rest
  | .sawDollar, c :: rest =>
      if c = '$' then '$' :: expandGo caps .normal rest
      else if c.isDigit then expandGo caps (.inGroup (c.toNat - 48)) rest
      else '$' :: c :: expandGo caps .normal rest
  | .inGroup n, c :: rest =>
      if c.isDigit then expandGo caps (.inGroup (n * 10 + (c.toNat - 48))) rest
      else if c = '$' then caps.group n ++ expandGo caps .sawDollar rest
      else caps.group n ++ c :: expandGo caps .normal rest

/-- `caps.expand(template, &mut dst)`: expand template variables from
the capture groups. -/
def Captures.expand (caps : Captures) (template : Chars) : Chars :=
  expandGo caps .normal template

/-! ## Outbound events (`events.rs`)

The snapshot's `events.rs` predates the `Countdown` variant, which
`triggers.rs` constructs and the CLI consumes; we include it. -/

/-- `events::EventKind`. -/
inductive EventKind
  | Triggered (character : Character) (trigger : Trigger) (log : LogEvent)
  | DisplayText (text : Chars)
  | Countdown (text : Chars) (duration : Duration) (remaining : Duration)
deriving DecidableEq, Repr

/-- `events::Event`: an outbound event stamped with its creation
instant. -/
structure Event where
  created : Instant
  kind : EventKind
deriving DecidableEq, Repr

/-- `Event::new`: stamp a kind with the current instant. -/
def Event.new (now : Instant) (kind : EventKind) : Event :=
  { created := now, kind := kind }

/-! ## Live actions (`triggers.rs`) -/

/-- `triggers::ActionKind`. -/
inductive ActionKind
  | Triggered (character : Character) (trigger : Trigger) (log : LogEvent)
  | DisplayText (text : Chars)
  | Countdown (text : Chars) (duration : Duration) (ends_at : Instant)
deriving DecidableEq, Repr

/-- `triggers::Action`: runtime state of an action in flight. -/
structure Action where
  kind : ActionKind
  delay_until : Option Instant
  finished : Bool
deriving DecidableEq, Repr

/-- `Action::new` (triggers.rs:39-82): build a live action from a
template and the capture groups of the firing match.  The source calls
`Instant::now()` separately for `ends_at` and `delay_until`; both calls
happen inside one constructor call and are modelled by the single
instant `now`. -/
def Action.new (now : Instant) (caps : Captures) (action : TriggerAction) : Action :=
  match action with
  | .DisplayText text delay =>
      { kind := .DisplayText (caps.expand text),
        delay_until := delay.map (fun d => now + d),
        finished := false }
  | .Countdown text duration delay =>
      let start_delay := delay.getD 0
      { kind := .Countdown (caps.expand text) duration (now + duration + start_delay),
        delay_until := delay.map (fun d => now + d),
        finished := false }

/-- `Action::triggered` (triggers.rs:84-94): the synthetic `Triggered`
action, with no delay. -/
def Action.triggered (character : Character) (trigger : Trigger) (log : LogEvent) : Action :=
  { kind := .Triggered character trigger log,
    delay_until := none,
    finished := false }

/-- The kind dispatch of `Action::events` (triggers.rs:107-144), reached
once the delay check has passed; the delay has already been cleared. -/
def Action.eventsAfterDelay (a : Action) (now : Instant) : Option (List Event) × Action :=
  match a.kind with
  | .Triggered c t l =>
      (some [Event.new now (.Triggered c t l)], { a with finished := true })
  | .DisplayText text =>
      (some [Event.new now (.DisplayText text)], { a with finished := true })
  | .Countdown text duration ends_at =>
      if ends_at ≤ now then
        (some [Event.new now (.Countdown text duration 0)], { a with finished := true })
      else
        (some [Event.new now (.Countdown text duration (ends_at - now))], a)

/-- `Action::events` (triggers.rs:96-145): returns the events an action
is ready to emit at instant `now`, together with the mutated action.
A pending delay suppresses emission; once reached it is cleared so
future calls skip the check. -/
def Action.events (a : Action) (now : Instant) : Option (List Event) × Action :=
  match a.delay_until with
  | some du =>
      if now < du then (none, a)
      else Action.eventsAfterDelay { a with delay_until := none } now
  | none => Action.eventsAfterDelay a now

/-! ## Compiled triggers (`triggers.rs`) -/

/-- `triggers::CompiledTrigger`. -/
structure CompiledTrigger where
  character : Character
  trigger : Trigger
  regex : CRegex

/-- `CompiledTrigger::new` (triggers.rs:160-166): compile
`trigger.search_text`; a regex error fails the construction. -/
def CompiledTrigger.new (engine : RegexEngine) (character : Character)
    (trigger : Trigger) : Option CompiledTrigger :=
  (engine.compile trigger.search_text).map
    (fun r => { character := character, trigger := trigger, regex := r })

/-- `CompiledTrigger::execute` (triggers.rs:168-183): run the
per-trigger regex against the event's message; on a match produce the
synthetic `Triggered` action followed by one live action per template. -/
def CompiledTrigger.execute (ct : CompiledTrigger) (now : Instant)
    (event : LogEvent) : Option (List Action) :=
  (ct.regex.captures event.message).map (fun caps =>
    Action.triggered ct.character ct.trigger event ::
      ct.trigger.actions.map (fun a => Action.new now caps a))

/-! ## Trigger compilation at configuration load (`config/triggers.rs`) -/

/-- `config::triggers::TriggerSet`: one source's declarative triggers
(`meta.source` plus the `BTreeMap<TriggerId, Trigger>`, kept as an
association list in key order). -/
structure TriggerSet where
  source : TriggerSource
  triggers : List (String × Trigger)

/-- `config::triggers::Triggers`: the compiled form held by the config
snapshot.  `compiled` maps a character id to its compiled triggers;
`filters` maps a character id to the pattern strings of its
`RegexSet` (the compiled set is represented by its patterns, matched
through the engine — observationally the same matcher). -/
structure Triggers where
  compiled : List (CharacterId × List CompiledTrigger)
  filters : List (CharacterId × List Chars)

/-- The inner character loop of `Triggers::load`
(config/triggers.rs:111-129): for one `(trigger_id, trigger)` pair,
visit every character; unless the character disabled
`(source, trigger_id)`, push a freshly compiled trigger and the
trigger's pattern onto that character's entries.  A regex compile
failure (`CompiledTrigger::new(..)?`) aborts the whole load. -/
def compileForCharacters (engine : RegexEngine) (source : TriggerSource)
    (trigger_id : String) (trigger : Trigger) :
    List (CharacterId × Character) →
    List (CharacterId × List CompiledTrigger) × List (CharacterId × List Chars) →
    Option (List (CharacterId × List CompiledTrigger) × List (CharacterId × List Chars))
  | [], st => some st
  | (cid, c) :: rest, (comp, filt) =>
      if (TriggerRef.mk source trigger_id) ∈ c.disabled_triggers then
        compileForCharacters engine source trigger_id trigger rest (comp, filt)
      else
        match CompiledTrigger.new engine c trigger with
        | none => none
        | some ct =>
            compileForCharacters engine source trigger_id trigger rest
              (alistPush comp cid ct, alistPush filt cid trigger.search_text)

/-- The outer trigger loop of `Triggers::load`
(config/triggers.rs:110-130). -/
def compileTriggers (engine : RegexEngine) (source : TriggerSource)
    (characters : List (CharacterId × Character)) :
    List (String × Trigger) →
    List (CharacterId × List CompiledTrigger) × List (CharacterId × List Chars) →
    Option (List (CharacterId × List CompiledTrigger) × List (CharacterId × List Chars))
  | [], st => some st
  | (tid, t) :: rest, st =>
      match compileForCharacters engine source tid t characters st with
      | none => none
      | some st' => compileTriggers engine source characters rest st'

/-- `Triggers::load` (config/triggers.rs:99-154).  The file read
(`load_triggers_from_dir`) is external I/O; its result — the local
trigger set, or `none` when the file is absent — is the `localSet`
parameter. -/
def Triggers.load (engine : RegexEngine) (localSet : Option TriggerSet)
    (characters : List (CharacterId × Character)) : Option Triggers :=
  match localSet with
  | none => some { compiled := [], filters := [] }
  | some trg =>
      match compileTriggers engine trg.source characters trg.triggers ([], []) with
      | none => none
      | some (comp, filt) => some { compiled := comp, filters := filt }

/-- `RegexSet::is_match`: does any pattern of the set match the line?
The patterns were validated during `load`; the unreachable
compile-failure branch is a non-match. -/
def regexSetIsMatch (engine : RegexEngine) (patterns : List Chars) (line : Chars) : Bool :=
  patterns.any (fun p => ((engine.compile p).map (fun r => (r.captures line).isSome)).getD false)

/-- `Triggers::filter` (config/triggers.rs:156-164): the per-character
prefilter predicate; a character with no patterns rejects every line. -/
def Triggers.filter (engine : RegexEngine) (t : Triggers) (id : CharacterId) :
    Chars → Bool :=
  match alistGet t.filters id with
  | some ps => fun line => regexSetIsMatch engine ps line
  | none => fun _ => false

/-- `Triggers::compiled` (config/triggers.rs:166-168): the compiled
triggers of one character (named `compiledFor` here because `compiled`
is the field). -/
def Triggers.compiledFor (t : Triggers) (id : CharacterId) : Option (List CompiledTrigger) :=
  alistGet t.compiled id

/-- `config::Config`: the snapshot the driver reads (directories and
file I/O omitted). -/
structure Config where
  characters : List (CharacterId × Character)
  triggers : Triggers

/-! ## The log tailer (`watcher.rs`) -/

/-- The message part of the wire-format regex: `(.+?)\r?\n$` with `.`
not matching a newline.  The input must end in a newline; the lazy
group is the rest minus that newline, minus one further carriage return
when one is present and the group stays non-empty; the group may not
contain a newline. -/
def matchMsg (r : Chars) : Option Chars :=
  if r.getLast? = some '\n' then
    let core := r.dropLast
    let m := if core.getLast? = some '\r' ∧ core.dropLast ≠ [] then core.dropLast else core
    if m ≠ [] ∧ '\n' ∉ m then some m else none
  else none

/-- `parse_raw_line` (watcher.rs:34-46): match a raw line against
`RAW_LINE_RE = ^\[([^]]+)\] (.+?)\r?\n$` and return the two capture
groups (timestamp text, message).  `[^]]+` is the maximal non-empty
run of non-`]` characters after the opening bracket, which must be
followed by the literal `] `. -/
def parse_raw_line (s : Chars) : Option (Chars × Chars) :=
  if s.head? = some '[' then
    let rest := s.tail
    let date_str := rest.takeWhile (fun c => c ≠ ']')
    let after := rest.dropWhile (fun c => c ≠ ']')
    if date_str ≠ [] ∧ after.head? = some ']' ∧ after.tail.head? = some ' ' then
      (matchMsg after.tail.tail).map (fun m => (date_str, m))
    else none
  else none

/-- `BufRead::read_line` on the unread remainder of the file: split off
the bytes up to and including the first newline — or everything when no
newline remains (end of file reached mid-line). -/
def readLineSplit : Chars → Chars × Chars
  | [] => ([], [])
  | c :: rest =>
      if c = '\n' then ([c], rest)
      else
        let (t, r) := readLineSplit rest
        (c :: t, r)

/-- The per-line body of `process_lines` (watcher.rs:138-155): parse
the buffered line; on success, if the prefilter admits the message,
construct one `LogEvent` (timestamp parsed by chrono `pd`, falling back
to the local clock `nd` on failure) and send it. -/
def handleLine (pd : Chars → Option Nat) (nd : Nat) (filter : Chars → Bool)
    (id : String) (buffer : Chars) : List LogEvent :=
  match parse_raw_line buffer with
  | some (date_str, line) =>
      if filter line then
        [{ id := id, date := ((pd date_str).getD nd), message := line }]
      else []
  | none => []

/-- The `read_line` loop of `process_lines` (watcher.rs:122-158),
fuelled by the number of remaining newlines (each iteration either
consumes a newline or exhausts the file): while the read appends bytes,
run the line body on the buffer and then clear the buffer.  Returns the
final scratch buffer and the sent events. -/
def drainGo (pd : Chars → Option Nat) (nd : Nat) (filter : Chars → Bool)
    (id : String) : Nat → Chars → Chars → Chars × List LogEvent
  | 0, buf, _ => (buf, [])
  | fuel + 1, buf, rest =>
      let tr := readLineSplit rest
      if tr.1 = [] then (buf, [])
      else
        let evs := handleLine pd nd filter id (buf ++ tr.1)
        let br := drainGo pd nd filter id fuel [] tr.2
        (br.1, evs ++ br.2)

/-- The `read_line` loop of `process_lines` with its canonical fuel. -/
def drainLines (pd : Chars → Option Nat) (nd : Nat) (filter : Chars → Bool)
    (id : String) (buf rest : Chars) : Chars × List LogEvent :=
  drainGo pd nd filter id (rest.count '\n' + 1) buf rest

/-- `watcher::LogHandler`: the per-file tailer state.  `reader` is the
open handle's read offset into the file (`none`: no handle).  The
outbound channel and the file itself are passed at the call sites. -/
structure LogHandler where
  id : String
  reader : Option Nat
  buffer : Chars
  filter : Chars → Bool

/-- `LogHandler::open_reader` (watcher.rs:91-106) as it affects the
model: opening the file (read-only, `File::open`) positions a fresh
reader at offset `0`; a missing (or unopenable) file leaves no
handle. -/
def LogHandler.openReader (file : Option Chars) : Option Nat :=
  file.map (fun _ => 0)

/-- `LogHandler::new` (watcher.rs:59-89): construct with the reject-all
filter and an empty scratch buffer, open the file read-only and seek
the reader to the end of the file when it exists. -/
def LogHandler.new (id : String) (file : Option Chars) : LogHandler :=
  { id := id,
    reader := file.map (fun content => content.length),
    buffer := [],
    filter := fun _ => false }

/-- `LogHandler::reopen_reader` (watcher.rs:108-110): replace the
reader with a freshly opened one — at offset `0`, with no seek. -/
def LogHandler.reopenReader (h : LogHandler) (file : Option Chars) : LogHandler :=
  { h with reader := LogHandler.openReader file }

/-- `LogHandler::process_lines` (watcher.rs:112-160): with no handle do
nothing; otherwise drain the unread remainder of the file through the
`read_line` loop, advancing the read offset past everything read. -/
def LogHandler.process_lines (pd : Chars → Option Nat) (nd : Nat)
    (h : LogHandler) (content : Chars) : LogHandler × List LogEvent :=
  match h.reader with
  | none => (h, [])
  | some pos =>
      let br := drainLines pd nd h.filter h.id h.buffer (content.drop pos)
      ({ h with buffer := br.1, reader := some (pos + (content.drop pos).length) }, br.2)

/-- `LogHandler::set_filter` (watcher.rs:162-164). -/
def LogHandler.set_filter (h : LogHandler) (f : Chars → Bool) : LogHandler :=
  { h with filter := f }

/-- The kinds of `notify::EventKind` the handler distinguishes. -/
inductive NotifyKind
  | Create
  | Modify
  | Remove
  | Access
  | Other
deriving DecidableEq, Repr

/-- `LogHandler::handle_event` (watcher.rs:167-184): `Create` reopens
the handle (offset 0, no seek), `Modify` drains lines, `Remove` and
`Access` do nothing, unknown kinds only warn.  `file` is the current
state of the watched path. -/
def LogHandler.handle_event (pd : Chars → Option Nat) (nd : Nat)
    (h : LogHandler) (kind : NotifyKind) (file : Option Chars) :
    LogHandler × List LogEvent :=
  match kind with
  | .Create => (h.reopenReader file, [])
  | .Modify => h.process_lines pd nd (file.getD [])
  | .Remove => (h, [])
  | .Access => (h, [])
  | .Other => (h, [])

/-! ## The event bus and the driver (`driver.rs`, `events.rs`)

`Driver::create` builds the event bus with `bounded(1000)`; the driver
thread is the only producer.  A `crossbeam_channel` bounded
`Sender::send` delivers when there is room in the queue, returns
`Err(SendError)` only when the channel is disconnected, and otherwise
blocks the calling thread until room frees.  We model the instantaneous
effect of one send attempt; `SendOutcome.blocked` records that the
thread would block there (the event is neither enqueued, nor dropped,
nor logged at that point), and `SendOutcome.disconnected` the `Err`
case, which `action_events` logs and in which the event is dropped. -/

/-- The outcome of one attempt to send on the bounded event bus. -/
inductive SendOutcome
  | delivered
  | blocked
  | disconnected
deriving DecidableEq, Repr

/-- The bounded multi-producer single-consumer event bus
(`crossbeam_channel::bounded`). -/
structure Bus where
  capacity : Nat
  queue : List Event
  connected : Bool
deriving DecidableEq, Repr

/-- One `Sender::send` attempt on the bounded bus. -/
def Bus.send (b : Bus) (e : Event) : SendOutcome × Bus :=
  if b.connected = false then (.disconnected, b)
  else if b.queue.length < b.capacity then
    (.delivered, { b with queue := b.queue ++ [e] })
  else (.blocked, b)

/-- The event bus as `Driver::create` (driver.rs:146-153) builds it:
capacity 1000, empty, connected. -/
def driverEventBus : Bus :=
  { capacity := 1000, queue := [], connected := true }

/-- The send loop inside `action_events` (driver.rs:34-39): send each
event in order; a send error (disconnected bus) is logged and that
event dropped; a send that blocks suspends the driver thread at that
event, so the later events are not reached.  Returns the bus and each
attempted event with its outcome. -/
def sendAll (bus : Bus) : List Event → Bus × List (Event × SendOutcome)
  | [] => (bus, [])
  | e :: rest =>
      match Bus.send bus e with
      | (.blocked, b') => (b', [(e, .blocked)])
      | (outcome, b') =>
          let br := sendAll b' rest
          (br.1, (e, outcome) :: br.2)

/-- `action_events` (driver.rs:31-40): drain an action's ready events
and send each on the event bus. -/
def action_events (now : Instant) (bus : Bus) (a : Action) :
    Bus × Action × List (Event × SendOutcome) :=
  match a.events now with
  | (some evs, a') =>
      let br := sendAll bus evs
      (br.1, a', br.2)
  | (none, a') => (bus, a', [])

/-- All compiled triggers of the snapshot, as the driver iterates them:
`config.triggers.compiled().values()` (driver.rs:118) visits every
compiled trigger of every character — per-character filtering is an
explicit TODO in the source — i.e. the flattening of the per-character
compiled map. -/
def allCompiled (t : Triggers) : List CompiledTrigger :=
  (t.compiled.map Prod.snd).flatten

/-- The per-action inner loop of `on_log_event` (driver.rs:121-127):
for each produced action, drain its ready events onto the bus, then
push it onto the active list only when it is not finished.  Returns the
kept actions, the bus, and the attempted sends. -/
def driveActions (now : Instant) (bus : Bus) :
    List Action → List Action × Bus × List (Event × SendOutcome)
  | [] => ([], bus, [])
  | a :: rest =>
      let r := action_events now bus a
      let rr := driveActions now r.1 rest
      ((if r.2.1.finished then [] else [r.2.1]) ++ rr.1, rr.2.1, r.2.2 ++ rr.2.2)

/-- The trigger loop of `on_log_event` (driver.rs:118-129): execute
every compiled trigger against the matched event; for each match run
the per-action loop. -/
def driveTriggers (now : Instant) (matched : LogEvent) (bus : Bus) :
    List CompiledTrigger → List Action × Bus × List (Event × SendOutcome)
  | [] => ([], bus, [])
  | ct :: rest =>
      match ct.execute now matched with
      | none => driveTriggers now matched bus rest
      | some acts =>
          let r := driveActions now bus acts
          let rr := driveTriggers now matched r.2.1 rest
          (r.1 ++ rr.1, rr.2.1, r.2.2 ++ rr.2.2)

/-- `DriverThread::on_log_event` (driver.rs:104-131): look the
character up in the current snapshot; when absent, drop the event;
otherwise run every compiled trigger of the snapshot, appending the
surviving produced actions to `active_actions`.  Returns the active
list, the bus, and the attempted sends. -/
def on_log_event (cfg : Config) (now : Instant) (actions : List Action)
    (bus : Bus) (matched : LogEvent) :
    List Action × Bus × List (Event × SendOutcome) :=
  match alistGet cfg.characters matched.id with
  | none => (actions, bus, [])
  | some _ =>
      let r := driveTriggers now matched bus (allCompiled cfg.triggers)
      (actions ++ r.1, r.2.1, r.2.2)

/-- The iteration of `on_tick` over `active_actions`
(driver.rs:134-136): run `action_events` on each action in place. -/
def tickActions (now : Instant) (bus : Bus) :
    List Action → List Action × Bus × List (Event × SendOutcome)
  | [] => ([], bus, [])
  | a :: rest =>
      let r := action_events now bus a
      let rr := tickActions now r.1 rest
      (r.2.1 :: rr.1, rr.2.1, r.2.2 ++ rr.2.2)

/-- `DriverThread::on_tick` (driver.rs:133-138): drain each active
action's events, then retain only the unfinished actions. -/
def on_tick (now : Instant) (actions : List Action) (bus : Bus) :
    List Action × Bus × List (Event × SendOutcome) :=
  let r := tickActions now bus actions
  (r.1.filter (fun a => !a.finished), r.2.1, r.2.2)

/-- A run of driver ticks at the given instants (the 250ms tick source
delivers a monotone sequence of instants). -/
def runTicks (bus : Bus) (actions : List Action) :
    List Instant → List Action × Bus × List (Event × SendOutcome)
  | [] => (actions, bus, [])
  | t :: ts =>
      let r := on_tick t actions bus
      let rr := runTicks r.2.1 r.1 ts
      (rr.1, rr.2.1, r.2.2 ++ rr.2.2)

/-- The `Countdown` remaining values among a list of emitted events, in
emission order. -/
def countdownRemainings (evs : List Event) : List Duration :=
  evs.filterMap (fun e =>
    match e.kind with
    | .Countdown _ _ r => some r
    | _ => none)

/-- The events attempted by a run, in order (each attempted event
appears in the outcome list whatever its outcome). -/
def attemptedEvents (outs : List (Event × SendOutcome)) : List Event :=
  outs.map Prod.fst

/-! ## Spec-side observation helpers -/

/-- The prefix of a tick list up to and including the first tick at or
past `e` (the ticks at which a countdown with deadline `e` emits before
finishing, plus its final tick). -/
def upTo (e : Nat) : List Nat → List Nat
  | [] => []
  | t :: ts => if e ≤ t then [t] else t :: upTo e ts

/-- The events a list of freshly produced actions is ready to emit at
`now`, in order (the sends `on_log_event` attempts for them). -/
def emitListOf (now : Instant) (acts : List Action) : List Event :=
  acts.flatMap (fun a => ((a.events now).1).getD [])

/-- The produced actions surviving the immediate drain of
`on_log_event`: each action after its first `events` call, kept only
when not finished. -/
def keptOf (now : Instant) (acts : List Action) : List Action :=
  (acts.map (fun a => (a.events now).2)).filter (fun a => !a.finished)

/-- All events a log event causes across a compiled-trigger list: for
each matching trigger, the ready events of each produced action. -/
def triggerEmissions (now : Instant) (ev : LogEvent)
    (cts : List CompiledTrigger) : List Event :=
  cts.flatMap (fun ct =>
    match ct.execute now ev with
    | none => []
    | some acts => emitListOf now acts)

/-- The actions a log event adds to `active_actions` across a
compiled-trigger list. -/
def keptTriggerActions (now : Instant) (ev : LogEvent)
    (cts : List CompiledTrigger) : List Action :=
  cts.flatMap (fun ct =>
    match ct.execute now ev with
    | none => []
    | some acts => keptOf now acts)

/-- Projection of a compiled trigger onto its character and trigger
(forgetting the compiled regex function). -/
def ctProj (ct : CompiledTrigger) : Character × Trigger :=
  (ct.character, ct.trigger)

/-! ## Concrete fixtures for witnesses and counterexamples -/

/-- A toy regex engine for concrete runs: a pattern matches exactly
itself, capturing the whole match as group 0. -/
def litEngine : RegexEngine :=
  { compile := fun pat =>
      some { captures := fun line => if line = pat then some [some line] else none } }

/-- chrono parse stub for concrete runs: parsing always fails, so the
tailer falls back to the local clock. -/
def pdNone : Chars → Option Nat := fun _ => none

/-- An admit-everything prefilter for concrete runs. -/
def admitAll : Chars → Bool := fun _ => true

/-- Concrete character "A" (no disabled triggers). -/
def chA : Character :=
  { name := "A", server := "srv", filename := "/logs/a.txt", disabled_triggers := [] }

/-- Concrete character "B", which disabled the local trigger `T1`. -/
def chB : Character :=
  { name := "B", server := "srv", filename := "/logs/b.txt",
    disabled_triggers := [{ source := .Local, id := "T1" }] }

/-- Concrete trigger `T1` with one immediate `DisplayText` template. -/
def t1W : Trigger :=
  { name := "T1", comment := "", search_text := "pat".toList,
    actions := [.DisplayText "hit".toList none] }

/-- Concrete character map for witness configurations. -/
def charsW : List (CharacterId × Character) := [("A", chA), ("B", chB)]

/-- Concrete local trigger set holding only `T1`. -/
def trgSetW : TriggerSet := { source := .Local, triggers := [("T1", t1W)] }

/-- The triggers compiled from `trgSetW` over `charsW` with the toy
engine (the load succeeds, so `getD` peels the `some`). -/
def TW : Triggers :=
  (Triggers.load litEngine (some trgSetW) charsW).getD { compiled := [], filters := [] }

/-- Concrete configuration snapshot for driver runs. -/
def cfgW : Config := { characters := charsW, triggers := TW }

/-- A log event attributed to character "B" whose message matches
`T1`'s pattern. -/
def evB : LogEvent := { id := "B", date := 0, message := "pat".toList }

/-- A log event for an id absent from `cfgW`. -/
def evZ : LogEvent := { id := "Z", date := 0, message := "pat".toList }

/-- A log event whose message matches nothing. -/
def evMiss : LogEvent := { id := "A", date := 0, message := "nope".toList }

/-- The compiled trigger the toy engine produces for `("A", T1)`. -/
def ctW : CompiledTrigger :=
  { character := chA, trigger := t1W,
    regex := { captures := fun line =>
        if line = "pat".toList then some [some line] else none } }

/-- An already queued event used to saturate buses. -/
def evQueued : Event := Event.new 0 (.DisplayText "q".toList)

/-- The driver's event bus at capacity: 1000 events already queued. -/
def fullBus : Bus :=
  { capacity := 1000, queue := List.replicate 1000 evQueued, connected := true }

/-- A disconnected event bus (consumer dropped). -/
def disconnBus : Bus := { capacity := 1000, queue := [], connected := false }

/-- A ready (armed, unfinished) `DisplayText` live action. -/
def dtReady : Action :=
  { kind := .DisplayText "hello".toList, delay_until := none, finished := false }

/-- Tailer for character "A" constructed over an initially empty file,
with an admit-everything prefilter installed. -/
def tailerA : LogHandler :=
  (LogHandler.new "A" (some [])).set_filter admitAll

/-- First flush: a wire-format line cut off mid-line (no newline yet). -/
def chunk1 : Chars := "[Fri Apr 29 17:25:01 2022] You have be".toList

/-- The file once the rest of the line has been appended. -/
def fullContent : Chars := chunk1 ++ "en slain by Dragon.\n".toList

/-! ## Shared step lemmas -/

/-- On a `Countdown` kind, the post-delay dispatch emits one event whose
remaining time is `ends_at - now` (truncated, hence `0` at or past the
deadline), finishing exactly at or past the deadline. -/
theorem eventsAfterDelay_countdown (a : Action) (text : Chars) (D e : Nat)
    (t : Instant) (hk : a.kind = .Countdown text D e) :
    a.eventsAfterDelay t =
      (some [Event.new t (.Countdown text D (e - t))],
       if e ≤ t then { a with finished := true } else a) := by
  obtain ⟨k, du, f⟩ := a
  simp only at hk
  subst hk
  simp only [Action.eventsAfterDelay]
  split_ifs with h
  · simp [Nat.sub_eq_zero_of_le h]
  · rfl

/-- Sending a single event records its outcome. -/
theorem sendAll_singleton (bus : Bus) (e : Event) :
    sendAll bus [e] = ((Bus.send bus e).2, [(e, (Bus.send bus e).1)]) := by
  rcases h : Bus.send bus e with ⟨o, b'⟩
  cases o <;> simp [sendAll, h]

/-- A disconnected bus returns the send error (which `action_events`
logs, dropping the event). -/
theorem Bus.send_disconnected (bus : Bus) (e : Event)
    (h : bus.connected = false) : Bus.send bus e = (.disconnected, bus) := by
  simp [Bus.send, h]

/-- A full but connected bus blocks the sender. -/
theorem Bus.send_full (bus : Bus) (e : Event) (h1 : bus.connected = true)
    (h2 : bus.capacity ≤ bus.queue.length) :
    Bus.send bus e = (.blocked, bus) := by
  simp [Bus.send, h1, Nat.not_lt.mpr h2]

/-- A connected bus with room delivers. -/
theorem Bus.send_room (bus : Bus) (e : Event) (h1 : bus.connected = true)
    (h2 : bus.queue.length < bus.capacity) :
    Bus.send bus e = (.delivered, { bus with queue := bus.queue ++ [e] }) := by
  simp [Bus.send, h1, h2]

/-! ## Claim C7 -/

/-- Claim C7 (confirmed): at construction the tailer opens the file and
seeks to end-of-file (holding no handle when the file is absent); a
`Create` notification instead reopens the handle at offset `0` with no
re-seek and emits nothing, so the `Modify` following a rotation drains
the new file from its beginning.  (`File::open` is read-only by
construction of the model: the reader affords no writes.) -/
theorem claimC7 (pd : Chars → Option Nat) (nd : Nat) (id : String)
    (content : Chars) (h : LogHandler) (file' : Chars) :
    (LogHandler.new id (some content)).reader = some content.length ∧
    (LogHandler.new id none).reader = none ∧
    (h.handle_event pd nd .Create (some file')).1.reader = some 0 ∧
    (h.handle_event pd nd .Create (some file')).2 = [] ∧
    ((h.handle_event pd nd .Create (some file')).1.handle_event pd nd .Modify
        (some file')).2
      = (drainLines pd nd h.filter h.id h.buffer file').2 := by
  refine ⟨rfl, rfl, rfl, rfl, ?_⟩
  simp [LogHandler.handle_event, LogHandler.reopenReader, LogHandler.openReader,
    LogHandler.process_lines]

/-! ## Claim C10 -/

/-- Claim C10 (confirmed): a `Countdown` template of duration `D` and
delay `d` fired at `now` yields `ends_at = now + D + d` and
`delay_until = now + d` (with no delay, `ends_at = now + D` and no
gate), so before `now + d` nothing is emitted, any emission at
`t ≥ now + d` carries `remaining = (now + D + d) - t ≤ D`, and the
remaining value is `0` only at `t ≥ now + (d + D)`. -/
theorem claimC10 (now : Nat) (caps : Captures) (text : Chars)
    (D d : Nat) (a : Action)
    (ha : a = Action.new now caps (.Countdown text D (some d))) :
    a.kind = .Countdown (caps.expand text) D (now + D + d) ∧
    a.delay_until = some (now + d) ∧
    (∀ t : Nat, t < now + d → a.events t = (none, a)) ∧
    (∀ t : Nat, now + d ≤ t →
      a.events t =
        (some [Event.new t (.Countdown (caps.expand text) D ((now + D + d) - t))],
         if now + D + d ≤ t then { a with delay_until := none, finished := true }
         else { a with delay_until := none })) ∧
    (∀ t : Nat, now + d ≤ t → (now + D + d) - t ≤ D) ∧
    (∀ t : Nat, (now + D + d) - t = 0 → now + (d + D) ≤ t) ∧
    (Action.new now caps (.Countdown text D none)).kind
      = .Countdown (caps.expand text) D (now + D) ∧
    (Action.new now caps (.Countdown text D none)).delay_until = none := by
  subst ha
  refine ⟨rfl, rfl, ?_, ?_, ?_, ?_, by simp [Action.new], rfl⟩
  · intro t ht
    simp [Action.events, Action.new, ht]
  · intro t ht
    have hnot : ¬ t < now + d := Nat.not_lt.mpr ht
    simp only [Action.events, Action.new, Option.map_some']
    rw [if_neg hnot]
    rw [eventsAfterDelay_countdown _ (caps.expand text) D (now + D + d) t rfl]
  · intro t ht
    omega
  · intro t ht
    omega

/-! ## Claim C5 -/

/-- Claim C5 (confirmed): executing a compiled trigger against a log
event produces nothing when the per-trigger regex does not match, and
on a match produces the synthetic `Triggered` action (no delay,
finished on its first emission) followed by exactly one live action per
template, each template built by `Action.new`, which expands its text
from the capture groups. -/
theorem claimC5 (ct : CompiledTrigger) (now : Instant) (ev : LogEvent) :
    (ct.regex.captures ev.message = none → ct.execute now ev = none) ∧
    (∀ caps, ct.regex.captures ev.message = some caps →
      ct.execute now ev =
        some (Action.triggered ct.character ct.trigger ev ::
          ct.trigger.actions.map (fun tmpl => Action.new now caps tmpl)) ∧
      (ct.execute now ev).map List.length = some (ct.trigger.actions.length + 1)) ∧
    (Action.triggered ct.character ct.trigger ev).delay_until = none ∧
    (∀ t, (Action.triggered ct.character ct.trigger ev).events t =
      (some [Event.new t (.Triggered ct.character ct.trigger ev)],
       { Action.triggered ct.character ct.trigger ev with finished := true })) ∧
    (∀ caps text delay, Action.new now caps (.DisplayText text delay) =
      { kind := .DisplayText (caps.expand text),
        delay_until := delay.map (fun x => now + x), finished := false }) ∧
    (∀ caps text D delay, Action.new now caps (.Countdown text D delay) =
      { kind := .Countdown (caps.expand text) D (now + D + delay.getD 0),
        delay_until := delay.map (fun x => now + x), finished := false }) := by
  refine ⟨?_, ?_, rfl, ?_, ?_, ?_⟩
  · intro h
    simp [CompiledTrigger.execute, h]
  · intro caps h
    constructor
    · simp [CompiledTrigger.execute, h]
    · simp [CompiledTrigger.execute, h]
  · intro t
    rfl
  · intro caps text delay
    rfl
  · intro caps text D delay
    rfl

/-- Witness for C5: the toy compiled trigger for `("A", T1)` produces
nothing on a non-matching message; on the matching message it produces
the `Triggered` action followed by one action per template (two in
all). -/
theorem claimC5_witness :
    ctW.execute 3 evMiss = none ∧
    ctW.execute 3 evB =
      some (Action.triggered ctW.character ctW.trigger evB ::
        ctW.trigger.actions.map
          (fun tmpl => Action.new 3 [some "pat".toList] tmpl)) ∧
    (ctW.execute 3 evB).map List.length = some 2 := by
  have h1 := (claimC5 ctW 3 evMiss).1 rfl
  have h2 := (claimC5 ctW 3 evB).2.1 [some "pat".toList] rfl
  exact ⟨h1, h2.1, h2.2⟩

/-! ## Claim C1 -/

/-- Claim C1 (code bug): the tailer does *not* retain partial lines.
`process_lines` clears its scratch buffer after every successful
`read_line`, including a read that hit end-of-file mid-line, so the
partial bytes are discarded: a wire-format line delivered in two
flushes produces *zero* events (the completed tail fails the parse on
its own), while the same line delivered whole produces exactly one.
Concretely, on the split `chunk1` / rest-of-line: after the first
`Modify` the buffer is empty and nothing was sent; after the second
`Modify` still nothing was sent; yet the full line delivered in one
flush yields one event. -/
theorem claimC1_code_bug :
    ((tailerA.handle_event pdNone 0 .Modify (some chunk1)).1.buffer = []) ∧
    ((tailerA.handle_event pdNone 0 .Modify (some chunk1)).2 = []) ∧
    (((tailerA.handle_event pdNone 0 .Modify (some chunk1)).1.handle_event
        pdNone 0 .Modify (some fullContent)).2 = []) ∧
    ((tailerA.handle_event pdNone 0 .Modify (some fullContent)).2 =
      [{ id := "A", date := 0,
         message := "You have been slain by Dragon.".toList }]) := by
  refine ⟨rfl, rfl, rfl, rfl⟩

/-! ## Claim C2 -/

/-- Counterexample to C2: with the event bus full (1000 events queued
on the capacity-1000 bus) but connected, the driver's send of a ready
event *blocks*: the outcome recorded is `blocked`, the bus is
unchanged, and no drop-with-log (`disconnected` outcome) occurs —
contradicting "the event is dropped with a log message and the driver
thread does not block". -/
theorem claimC2_counterexample :
    action_events 5 fullBus dtReady =
      (fullBus, { dtReady with finished := true },
       [(Event.new 5 (.DisplayText "hello".toList), .blocked)]) ∧
    fullBus.capacity = 1000 ∧
    fullBus.queue.length = 1000 ∧
    fullBus.connected = true := by
  have hlen : fullBus.queue.length = 1000 := by
    rw [show fullBus.queue = List.replicate 1000 evQueued from rfl,
      List.length_replicate]
  have hfull : Bus.send fullBus (Event.new 5 (.DisplayText "hello".toList))
      = (.blocked, fullBus) := by
    refine Bus.send_full _ _ rfl ?_
    rw [hlen]
    exact Nat.le_refl 1000
  refine ⟨?_, rfl, hlen, rfl⟩
  show ((sendAll fullBus [Event.new 5 (.DisplayText "hello".toList)]).1,
        ({ dtReady with finished := true } : Action),
        (sendAll fullBus [Event.new 5 (.DisplayText "hello".toList)]).2) = _
  rw [sendAll_singleton, hfull]

/-- Claim C2 as amended: a send on the event bus drops the event with a
logged error only when the bus is *disconnected*; when the bus is full
but connected the send blocks the driver thread (the event is neither
dropped nor logged, and nothing is enqueued); otherwise the event is
delivered onto the queue. -/
theorem claimC2_amended (bus : Bus) (a : Action) (now : Instant)
    (e : Event) (a' : Action) (hev : a.events now = (some [e], a')) :
    (bus.connected = false →
      action_events now bus a = (bus, a', [(e, .disconnected)])) ∧
    (bus.connected = true → bus.capacity ≤ bus.queue.length →
      action_events now bus a = (bus, a', [(e, .blocked)])) ∧
    (bus.connected = true → bus.queue.length < bus.capacity →
      action_events now bus a =
        ({ bus with queue := bus.queue ++ [e] }, a', [(e, .delivered)])) := by
  refine ⟨fun h1 => ?_, fun h1 h2 => ?_, fun h1 h2 => ?_⟩
  · simp [action_events, hev, sendAll_singleton, Bus.send_disconnected bus e h1]
  · simp [action_events, hev, sendAll_singleton, Bus.send_full bus e h1 h2]
  · simp [action_events, hev, sendAll_singleton, Bus.send_room bus e h1 h2]

/-- Witness for the amended C2: on a disconnected bus the ready
`DisplayText` action's event comes back with the logged-and-dropped
outcome; on the fresh capacity-1000 driver bus it is delivered. -/
theorem claimC2_witness :
    action_events 5 disconnBus dtReady =
      (disconnBus, { dtReady with finished := true },
       [(Event.new 5 (.DisplayText "hello".toList), .disconnected)]) ∧
    action_events 5 driverEventBus dtReady =
      ({ driverEventBus with
          queue := [Event.new 5 (.DisplayText "hello".toList)] },
       { dtReady with finished := true },
       [(Event.new 5 (.DisplayText "hello".toList), .delivered)]) := by
  have h1 := claimC2_amended disconnBus dtReady 5
    (Event.new 5 (.DisplayText "hello".toList)) { dtReady with finished := true } rfl
  have h2 := claimC2_amended driverEventBus dtReady 5
    (Event.new 5 (.DisplayText "hello".toList)) { dtReady with finished := true } rfl
  refine ⟨h1.1 rfl, ?_⟩
  have h3 := h2.2.2 rfl (by decide)
  exact h3

/-- Witness for C10: at `now = 10`, `D = 5`, `d = 2` the countdown's
gate is `12`; evaluating before the gate emits nothing and the
remaining value two ticks after the gate is bounded by the duration. -/
theorem claimC10_witness :
    (Action.new 10 [] (.Countdown ['R'] 5 (some 2))).delay_until = some 12 ∧
    (Action.new 10 [] (.Countdown ['R'] 5 (some 2))).events 11 =
      (none, Action.new 10 [] (.Countdown ['R'] 5 (some 2))) ∧
    (10 + 5 + 2) - 14 ≤ 5 := by
  have h := claimC10 10 [] ['R'] 5 2 _ rfl
  exact ⟨h.2.1, h.2.2.1 11 (by decide), h.2.2.2.2.1 14 (by decide)⟩

/-! ## Claim C8 -/

/-- `takeWhile`/`dropWhile` split at the first failing element. -/
theorem takeWhile_middle (p : Char → Bool) (y : Char) (xs ys : Chars)
    (hxs : ∀ x ∈ xs, p x) (hy : ¬ p y) :
    (xs ++ y :: ys).takeWhile p = xs ∧ (xs ++ y :: ys).dropWhile p = y :: ys := by
  induction xs with
  | nil => simp [List.takeWhile, List.dropWhile, hy]
  | cons c cs ih =>
      have hc : p c := hxs c (List.mem_cons_self c cs)
      have hcs : ∀ x ∈ cs, p x := fun x hx => hxs x (List.mem_cons_of_mem _ hx)
      obtain ⟨ih1, ih2⟩ := ih hcs
      simp [List.takeWhile, List.dropWhile, hc, ih1, ih2]

/-- `read_line` returns the whole line when the remainder is exactly one
newline-terminated line. -/
theorem readLineSplit_complete (m : Chars) (hm : '\n' ∉ m) :
    readLineSplit (m ++ ['\n']) = (m ++ ['\n'], []) := by
  induction m with
  | nil => rfl
  | cons c cs ih =>
      have hc : ¬ (c = '\n') := fun h => hm (h ▸ List.mem_cons_self c cs)
      have hcs : '\n' ∉ cs := fun h => hm (List.mem_cons_of_mem _ h)
      simp [readLineSplit, hc, ih hcs]

/-- Draining a remainder that is exactly one complete line runs the
line body once on the buffered bytes and leaves the buffer empty. -/
theorem drainLines_single (pd : Chars → Option Nat) (nd : Nat)
    (filter : Chars → Bool) (id : String) (buf m : Chars) (hm : '\n' ∉ m) :
    drainLines pd nd filter id buf (m ++ ['\n']) =
      ([], handleLine pd nd filter id (buf ++ (m ++ ['\n']))) := by
  have hcount : (m ++ ['\n']).count '\n' = 1 := by
    rw [List.count_append]
    rw [List.count_eq_zero_of_not_mem hm]
    rfl
  rw [drainLines, hcount]
  rw [show (1 + 1 : Nat) = 2 from rfl]
  rw [show drainGo pd nd filter id 2 buf (m ++ ['\n']) =
        (if (readLineSplit (m ++ ['\n'])).1 = [] then (buf, [])
         else
          ((drainGo pd nd filter id 1 [] (readLineSplit (m ++ ['\n'])).2).1,
            handleLine pd nd filter id (buf ++ (readLineSplit (m ++ ['\n'])).1) ++
              (drainGo pd nd filter id 1 [] (readLineSplit (m ++ ['\n'])).2).2))
      from rfl]
  rw [readLineSplit_complete m hm]
  simp [drainGo, readLineSplit]

/-- Claim C8 (confirmed): every complete line is parsed against the
wire-format regex `RAW_LINE_RE`; a line failing the parse is skipped
(no `LogEvent`), and a parsed line admitted by the prefilter yields
exactly one `LogEvent` carrying the timestamp parse (falling back to
the wall clock `nd` when chrono fails) and the unbracketed remainder as
message.  The last conjunct checks the embedded regex against its
specification on well-formed lines. -/
theorem claimC8 (pd : Chars → Option Nat) (nd : Nat) (filter : Chars → Bool)
    (id : String) (line : Chars) :
    (parse_raw_line line = none → handleLine pd nd filter id line = []) ∧
    (∀ d m, parse_raw_line line = some (d, m) → filter m = true →
      handleLine pd nd filter id line =
        [{ id := id, date := (pd d).getD nd, message := m }]) ∧
    (∀ d m, parse_raw_line line = some (d, m) → filter m = false →
      handleLine pd nd filter id line = []) ∧
    (∀ m, line = m ++ ['\n'] → '\n' ∉ m →
      drainLines pd nd filter id [] line =
        ([], handleLine pd nd filter id line)) ∧
    (∀ d m, d ≠ [] → ']' ∉ d → m ≠ [] → '\n' ∉ m → '\r' ∉ m →
      parse_raw_line ('[' :: (d ++ (']' :: (' ' :: (m ++ ['\n'])))))
        = some (d, m)) := by
  refine ⟨?_, ?_, ?_, ?_, ?_⟩
  · intro h
    simp [handleLine, h]
  · intro d m h hf
    simp [handleLine, h, hf]
  · intro d m h hf
    simp [handleLine, h, hf]
  · intro m hl hm
    subst hl
    have := drainLines_single pd nd filter id [] m hm
    simpa using this
  · intro d m hd hdr hm hmn hmr
    have hsplit := takeWhile_middle (fun c => decide (c ≠ ']')) ']' d
      (' ' :: (m ++ ['\n']))
      (fun x hx => decide_eq_true (fun h => hdr (h ▸ hx)))
      (by simp)
    have hlast : (m ++ ['\n']).getLast? = some '\n' := List.getLast?_concat m
    have hdrop : (m ++ ['\n']).dropLast = m := List.dropLast_concat
    have hnotr : ¬ (m.getLast? = some '\r' ∧ m.dropLast ≠ []) := by
      rintro ⟨hr, -⟩
      exact hmr (List.mem_of_mem_getLast? hr)
    simp only [parse_raw_line, List.head?_cons, List.tail_cons, if_true]
    rw [hsplit.1, hsplit.2]
    simp [matchMsg, hlast, hdrop, hd, hnotr, hm, hmn]

/-- Witness for C8: a malformed line produces nothing; the well-formed
slain-by-Dragon line admitted by the prefilter produces exactly one
event; drained as a single complete flush it behaves the same; and the
embedded wire-format regex accepts the well-formed shape. -/
theorem claimC8_witness :
    handleLine pdNone 7 admitAll "A" "garbage line\n".toList = [] ∧
    handleLine pdNone 7 admitAll "A" fullContent =
      [{ id := "A", date := 7,
         message := "You have been slain by Dragon.".toList }] ∧
    drainLines pdNone 7 admitAll "A" [] fullContent =
      ([], handleLine pdNone 7 admitAll "A" fullContent) ∧
    parse_raw_line ('[' :: ("d".toList ++ (']' :: (' ' :: ("x".toList ++ ['\n'])))))
      = some ("d".toList, "x".toList) := by
  refine ⟨(claimC8 pdNone 7 admitAll "A" "garbage line\n".toList).1 rfl, ?_, ?_, ?_⟩
  · exact (claimC8 pdNone 7 admitAll "A" fullContent).2.1
      "Fri Apr 29 17:25:01 2022".toList
      "You have been slain by Dragon.".toList rfl rfl
  · exact (claimC8 pdNone 7 admitAll "A" fullContent).2.2.2.1
      "[Fri Apr 29 17:25:01 2022] You have been slain by Dragon.".toList
      (by decide) (by decide)
  · exact (claimC8 pdNone 7 admitAll "A" []).2.2.2.2 "d".toList "x".toList
      (by decide) (by decide) (by decide) (by decide) (by decide)

/-! ## Driver tick-run step lemmas -/

/-- A run over an empty active list does nothing. -/
theorem runTicks_nilActions (bus : Bus) (ts : List Instant) :
    runTicks bus [] ts = ([], bus, []) := by
  induction ts generalizing bus with
  | nil => rfl
  | cons t ts ih => simp [runTicks, on_tick, tickActions, ih]

/-- A tick on a single action that is not ready emits nothing and keeps
the action. -/
theorem on_tick_skip (t : Instant) (a : Action) (bus : Bus)
    (hev : a.events t = (none, a)) (hfin : a.finished = false) :
    on_tick t [a] bus = ([a], bus, []) := by
  simp [on_tick, tickActions, action_events, hev, hfin]

/-- A tick on a single action that emits one event: the event is sent
(with whatever outcome), and the action survives only when not
finished. -/
theorem on_tick_emit (t : Instant) (a a' : Action) (ev : Event) (bus : Bus)
    (hev : a.events t = (some [ev], a')) :
    on_tick t [a] bus =
      ((if a'.finished = true then [] else [a']),
       (Bus.send bus ev).2, [(ev, (Bus.send bus ev).1)]) := by
  simp only [on_tick, tickActions, action_events, hev, sendAll_singleton]
  cases ha' : a'.finished <;> simp [ha']

/-- A pending-delay action whose gate has not been reached skips the
tick unchanged. -/
theorem events_pending (k : ActionKind) (du : Nat) (f : Bool) (t : Nat)
    (hlt : t < du) :
    Action.events ⟨k, some du, f⟩ t = (none, ⟨k, some du, f⟩) := by
  simp [Action.events, hlt]

/-- One-shot trace: an action whose kind dispatch emits a single event
and finishes (the `Triggered` and `DisplayText` kinds), armed behind a
delay gate `du`, emits exactly one event over a whole tick run — at the
first tick at or past `du` — and is dropped from the active list then;
if no tick reaches the gate it emits nothing and stays. -/
theorem runTicks_delayed_oneshot (k : ActionKind) (ek : EventKind)
    (hone : ∀ (b : Action) (t : Instant), b.kind = k →
      b.eventsAfterDelay t = (some [Event.new t ek], { b with finished := true }))
    (du : Nat) (bus : Bus) (ticks : List Instant) :
    attemptedEvents (runTicks bus [⟨k, some du, false⟩] ticks).2.2
      = ((ticks.dropWhile (fun x => decide (x < du))).head?).elim []
          (fun tf => [Event.new tf ek]) ∧
    (runTicks bus [⟨k, some du, false⟩] ticks).1
      = ((ticks.dropWhile (fun x => decide (x < du))).head?).elim
          [⟨k, some du, false⟩] (fun _ => []) := by
  induction ticks generalizing bus with
  | nil => simp [runTicks, attemptedEvents]
  | cons t ts ih =>
      by_cases hlt : t < du
      · have hstep := on_tick_skip t ⟨k, some du, false⟩ bus
          (events_pending k du false t hlt) rfl
        rw [runTicks, hstep]
        simp only [List.dropWhile_cons, decide_eq_true hlt, if_true]
        have := ih bus
        simp only [attemptedEvents, List.map_append] at this ⊢
        simpa using this
      · have hcl : Action.events ⟨k, some du, false⟩ t =
            (some [Event.new t ek], ⟨k, none, true⟩) := by
          have h1 := hone ⟨k, none, false⟩ t rfl
          simp [Action.events, Nat.not_lt.mp hlt, hlt]
          exact h1
        have hstep := on_tick_emit t ⟨k, some du, false⟩ ⟨k, none, true⟩
          (Event.new t ek) bus hcl
        rw [runTicks, hstep]
        simp [runTicks_nilActions, attemptedEvents, List.dropWhile_cons, hlt]

/-- One-shot trace for an action with no delay gate (such as the
synthetic `Triggered` action): it emits exactly one event, at the first
tick of the run. -/
theorem runTicks_armed_oneshot (k : ActionKind) (ek : EventKind)
    (hone : ∀ (b : Action) (t : Instant), b.kind = k →
      b.eventsAfterDelay t = (some [Event.new t ek], { b with finished := true }))
    (bus : Bus) (ticks : List Instant) :
    attemptedEvents (runTicks bus [⟨k, none, false⟩] ticks).2.2
      = (ticks.head?).elim [] (fun tf => [Event.new tf ek]) ∧
    (runTicks bus [⟨k, none, false⟩] ticks).1
      = (ticks.head?).elim [⟨k, none, false⟩] (fun _ => []) := by
  cases ticks with
  | nil => simp [runTicks, attemptedEvents]
  | cons t ts =>
      have hcl : Action.events ⟨k, none, false⟩ t =
          (some [Event.new t ek], ⟨k, none, true⟩) := by
        have h1 := hone ⟨k, none, false⟩ t rfl
        simp [Action.events]
        exact h1
      have hstep := on_tick_emit t ⟨k, none, false⟩ ⟨k, none, true⟩
        (Event.new t ek) bus hcl
      rw [runTicks, hstep]
      simp [runTicks_nilActions, attemptedEvents]

/-! ## Claim C6 -/

/-- Claim C6 (confirmed): an action whose `delay_until` lies in the
future emits nothing when evaluated and is left unchanged; at the first
evaluation with `now ≥ delay_until` the field is cleared; a `Triggered`
or `DisplayText` action then emits exactly one event and finishes, and
— the driver dropping finished actions from the active list — it emits
nothing further: over any whole tick run the delayed `DisplayText`
action emits exactly one event (at the first tick at or past its gate,
none when the gate is never reached) and is removed, and likewise the
ungated `Triggered` action at the first tick. -/
theorem claimC6 (a : Action) (du t : Nat) (c : Character) (tr : Trigger)
    (l : LogEvent) (text : Chars) :
    (a.delay_until = some du → t < du → a.events t = (none, a)) ∧
    (a.delay_until = some du → du ≤ t → (a.events t).2.delay_until = none) ∧
    (a.delay_until = none → a.kind = .Triggered c tr l →
      a.events t = (some [Event.new t (.Triggered c tr l)],
        { a with finished := true })) ∧
    (a.delay_until = none → a.kind = .DisplayText text →
      a.events t = (some [Event.new t (.DisplayText text)],
        { a with finished := true })) ∧
    (∀ (ticks : List Instant) (bus : Bus),
      attemptedEvents
          (runTicks bus [⟨.DisplayText text, some du, false⟩] ticks).2.2
        = ((ticks.dropWhile (fun x => decide (x < du))).head?).elim []
            (fun tf => [Event.new tf (.DisplayText text)]) ∧
      (runTicks bus [⟨.DisplayText text, some du, false⟩] ticks).1
        = ((ticks.dropWhile (fun x => decide (x < du))).head?).elim
            [⟨.DisplayText text, some du, false⟩] (fun _ => [])) ∧
    (∀ (ticks : List Instant) (bus : Bus),
      attemptedEvents (runTicks bus [Action.triggered c tr l] ticks).2.2
        = (ticks.head?).elim [] (fun tf => [Event.new tf (.Triggered c tr l)])) := by
  obtain ⟨k, dl, f⟩ := a
  refine ⟨?_, ?_, ?_, ?_, ?_, ?_⟩
  · intro hdl hlt
    simp only at hdl
    subst hdl
    exact events_pending k du f t hlt
  · intro hdl hle
    simp only at hdl
    subst hdl
    simp only [Action.events, Nat.not_lt.mpr hle, if_neg (by omega : ¬ t < du)]
    cases k with
    | Triggered c' tr' l' => rfl
    | DisplayText text' => rfl
    | Countdown text' D e => by_cases he : e ≤ t <;> simp [Action.eventsAfterDelay, he]
  · intro hdl hk
    simp only at hdl hk
    subst hdl
    subst hk
    rfl
  · intro hdl hk
    simp only at hdl hk
    subst hdl
    subst hk
    rfl
  · intro ticks bus
    exact runTicks_delayed_oneshot (.DisplayText text) (.DisplayText text)
      (fun b tb hb => by
        obtain ⟨kb, dlb, fb⟩ := b
        simp only at hb
        subst hb
        rfl) du bus ticks
  · intro ticks bus
    exact (runTicks_armed_oneshot (.Triggered c tr l) (.Triggered c tr l)
      (fun b tb hb => by
        obtain ⟨kb, dlb, fb⟩ := b
        simp only at hb
        subst hb
        rfl) bus ticks).1

/-- Witness for C6: a `DisplayText` action gated at `du = 5` skips the
tick at `3`, clears its gate at `6`, and over the run `[1, 3, 6, 9]`
emits exactly one event, at tick `6`, after which it is removed from
the active list; the ungated `Triggered` action emits at the first
tick. -/
theorem claimC6_witness :
    Action.events ⟨.DisplayText "hi".toList, some 5, false⟩ 3 =
      (none, ⟨.DisplayText "hi".toList, some 5, false⟩) ∧
    (Action.events ⟨.DisplayText "hi".toList, some 5, false⟩ 6).2.delay_until
      = none ∧
    attemptedEvents
        (runTicks driverEventBus
          [⟨.DisplayText "hi".toList, some 5, false⟩] [1, 3, 6, 9]).2.2
      = [Event.new 6 (.DisplayText "hi".toList)] ∧
    (runTicks driverEventBus
        [⟨.DisplayText "hi".toList, some 5, false⟩] [1, 3, 6, 9]).1 = [] ∧
    attemptedEvents
        (runTicks driverEventBus [Action.triggered chA t1W evB] [2, 4]).2.2
      = [Event.new 2 (.Triggered chA t1W evB)] := by
  have h := claimC6 ⟨.DisplayText "hi".toList, some 5, false⟩ 5 3 chA t1W evB
    "hi".toList
  have h6 := claimC6 ⟨.DisplayText "hi".toList, some 5, false⟩ 5 6 chA t1W evB
    "hi".toList
  refine ⟨h.1 rfl (by decide), h6.2.1 rfl (by decide), ?_, ?_, ?_⟩
  · have := (h.2.2.2.2.1 [1, 3, 6, 9] driverEventBus).1
    rw [this]
    rfl
  · have := (h.2.2.2.2.1 [1, 3, 6, 9] driverEventBus).2
    rw [this]
    rfl
  · have := h.2.2.2.2.2 [2, 4] driverEventBus
    rw [this]
    rfl

/-! ## Countdown run closed form -/

/-- Attempted events distribute over concatenated outcome lists. -/
theorem attemptedEvents_append (xs ys : List (Event × SendOutcome)) :
    attemptedEvents (xs ++ ys) = attemptedEvents xs ++ attemptedEvents ys :=
  List.map_append _ _ _

/-- A leading `Countdown` event contributes its remaining value. -/
theorem countdownRemainings_cons_countdown (t : Instant) (text : Chars)
    (D r : Nat) (l : List Event) :
    countdownRemainings (Event.new t (.Countdown text D r) :: l)
      = r :: countdownRemainings l := by
  simp [countdownRemainings, Event.new]

/-- `upTo e` selects a prefix of its input. -/
theorem upTo_sublist (e : Nat) (l : List Nat) : (upTo e l).Sublist l := by
  induction l with
  | nil => simp [upTo]
  | cons t ts ih =>
      by_cases he : e ≤ t
      · rw [show upTo e (t :: ts) = [t] from by simp [upTo, he]]
        exact (List.nil_sublist ts).cons₂ t
      · rw [show upTo e (t :: ts) = t :: upTo e ts from by simp [upTo, he]]
        exact ih.cons₂ t

/-- When some tick reaches the deadline, `upTo` is the strictly-early
ticks followed by the first tick at or past the deadline. -/
theorem upTo_of_any (e : Nat) (l : List Nat)
    (h : l.any (fun t => decide (e ≤ t)) = true) :
    ∃ tl, e ≤ tl ∧
      upTo e l = l.takeWhile (fun t => decide (t < e)) ++ [tl] := by
  induction l with
  | nil => simp at h
  | cons t ts ih =>
      by_cases he : e ≤ t
      · refine ⟨t, he, ?_⟩
        simp [upTo, he, List.takeWhile_cons, Nat.not_lt.mpr he]
      · have hts : ts.any (fun t => decide (e ≤ t)) = true := by
          simp only [List.any_cons, Bool.or_eq_true] at h
          rcases h with h | h
          · exact absurd (of_decide_eq_true h) he
          · exact h
        obtain ⟨tl, h1, h2⟩ := ih hts
        refine ⟨tl, h1, ?_⟩
        simp [upTo, he, h2, List.takeWhile_cons, Nat.lt_of_not_le he]

/-- When no tick reaches the deadline, `upTo` keeps the whole list, all
of it strictly early. -/
theorem upTo_of_not_any (e : Nat) (l : List Nat)
    (h : l.any (fun t => decide (e ≤ t)) = false) :
    upTo e l = l ∧ ∀ t ∈ l, t < e := by
  induction l with
  | nil => simp [upTo]
  | cons t ts ih =>
      simp only [List.any_cons, Bool.or_eq_false_iff] at h
      have ht : ¬ e ≤ t := by
        intro hc
        simp [hc] at h
      obtain ⟨ih1, ih2⟩ := ih h.2
      refine ⟨by simp [upTo, ht, ih1], ?_⟩
      intro x hx
      rcases List.mem_cons.mp hx with rfl | hx
      · omega
      · exact ih2 x hx

/-- In a sorted list, everything after the strictly-early prefix is at
or past the bound. -/
theorem dropWhile_lt_ge (g : Nat) (l : List Nat) (hs : l.Sorted (· ≤ ·)) :
    ∀ x ∈ l.dropWhile (fun t => decide (t < g)), g ≤ x := by
  induction l with
  | nil => simp
  | cons t ts ih =>
      rw [List.dropWhile_cons]
      obtain ⟨hhead, htail⟩ := List.sorted_cons.mp hs
      by_cases hlt : t < g
      · simpa [hlt] using ih htail
      · intro x hx
        simp only [decide_eq_true_eq, hlt, if_false] at hx
        rcases List.mem_cons.mp hx with rfl | hx
        · omega
        · exact le_trans (Nat.not_lt.mp hlt) (hhead x hx)

/-- Armed countdown, one tick before the deadline: emits `e - t`, stays
armed. -/
theorem events_countdown_armed_early (text : Chars) (D e t : Nat)
    (he : ¬ e ≤ t) :
    Action.events ⟨.Countdown text D e, none, false⟩ t =
      (some [Event.new t (.Countdown text D (e - t))],
       ⟨.Countdown text D e, none, false⟩) := by
  simp only [Action.events]
  rw [eventsAfterDelay_countdown ⟨.Countdown text D e, none, false⟩ text D e t rfl]
  rw [if_neg he]

/-- Armed countdown, one tick at or past the deadline: emits the final
`e - t = 0` and finishes. -/
theorem events_countdown_armed_final (text : Chars) (D e t : Nat)
    (he : e ≤ t) :
    Action.events ⟨.Countdown text D e, none, false⟩ t =
      (some [Event.new t (.Countdown text D (e - t))],
       ⟨.Countdown text D e, none, true⟩) := by
  simp only [Action.events]
  rw [eventsAfterDelay_countdown ⟨.Countdown text D e, none, false⟩ text D e t rfl]
  rw [if_pos he]

/-- Closed form of a whole tick run over one armed countdown: the
emitted remaining values are `e - t` over the ticks up to and including
the first at or past the deadline, and the action leaves the active
list exactly when some tick reached the deadline. -/
theorem runTicks_countdown_armed (text : Chars) (D e : Nat) (bus : Bus)
    (ticks : List Instant) :
    countdownRemainings (attemptedEvents
        (runTicks bus [⟨.Countdown text D e, none, false⟩] ticks).2.2)
      = (upTo e ticks).map (fun t => e - t) ∧
    (runTicks bus [⟨.Countdown text D e, none, false⟩] ticks).1
      = (if ticks.any (fun t => decide (e ≤ t)) = true then []
         else [⟨.Countdown text D e, none, false⟩]) := by
  induction ticks generalizing bus with
  | nil => simp [runTicks, attemptedEvents, countdownRemainings, upTo]
  | cons t ts ih =>
      by_cases he : e ≤ t
      · rw [runTicks,
          on_tick_emit t _ _ _ bus (events_countdown_armed_final text D e t he),
          if_pos rfl, runTicks_nilActions]
        constructor
        · simp only [List.append_nil, attemptedEvents, List.map_cons,
            List.map_nil]
          rw [countdownRemainings_cons_countdown]
          rw [show upTo e (t :: ts) = [t] from by simp [upTo, he]]
          simp [countdownRemainings]
        · rw [show (t :: ts).any (fun x => decide (e ≤ x)) = true from by
            simp [List.any_cons, he]]
          rw [if_pos rfl]
      · rw [runTicks,
          on_tick_emit t _ _ _ bus (events_countdown_armed_early text D e t he),
          if_neg (by simp)]
        obtain ⟨ih1, ih2⟩ :=
          ih (Bus.send bus (Event.new t (.Countdown text D (e - t)))).2
        constructor
        · rw [attemptedEvents_append]
          simp only [attemptedEvents, List.map_cons, List.map_nil]
          rw [show ([Event.new t (.Countdown text D (e - t))] : List Event)
              ++ List.map Prod.fst (runTicks
                (Bus.send bus (Event.new t (.Countdown text D (e - t)))).2
                [⟨.Countdown text D e, none, false⟩] ts).2.2
            = Event.new t (.Countdown text D (e - t))
              :: List.map Prod.fst (runTicks
                (Bus.send bus (Event.new t (.Countdown text D (e - t)))).2
                [⟨.Countdown text D e, none, false⟩] ts).2.2 from rfl]
          rw [countdownRemainings_cons_countdown]
          rw [show upTo e (t :: ts) = t :: upTo e ts from by simp [upTo, he]]
          rw [List.map_cons]
          exact congrArg _ ih1
        · rw [show (t :: ts).any (fun x => decide (e ≤ x))
              = ts.any (fun x => decide (e ≤ x)) from by
            simp [List.any_cons, he]]
          exact ih2

/-- A gated countdown attempts exactly the sends of the armed countdown
run over the ticks from the first at or past the gate (earlier ticks
skip, and reaching the gate clears it), and its action survives the run
precisely when the armed run's one does. -/
theorem runTicks_countdown_delayed (text : Chars) (D e du : Nat) (bus : Bus)
    (ticks : List Instant) :
    (runTicks bus [⟨.Countdown text D e, some du, false⟩] ticks).2.2
      = (runTicks bus [⟨.Countdown text D e, none, false⟩]
          (ticks.dropWhile (fun x => decide (x < du)))).2.2 ∧
    ((runTicks bus [⟨.Countdown text D e, some du, false⟩] ticks).1 = []
      ↔ (runTicks bus [⟨.Countdown text D e, none, false⟩]
          (ticks.dropWhile (fun x => decide (x < du)))).1 = []) := by
  induction ticks generalizing bus with
  | nil =>
      refine ⟨rfl, ?_⟩
      constructor
      · intro hc
        exact absurd hc (by simp [runTicks])
      · intro hc
        exact absurd hc (by simp [runTicks, List.dropWhile])
  | cons t ts ih =>
      by_cases hlt : t < du
      · rw [runTicks, on_tick_skip t _ bus (events_pending _ du false t hlt) rfl]
        simp only [List.dropWhile_cons, decide_eq_true hlt, if_true]
        simpa using ih bus
      · have heq : Action.events ⟨.Countdown text D e, some du, false⟩ t
            = Action.events ⟨.Countdown text D e, none, false⟩ t := by
          simp [Action.events, hlt]
        have hot : on_tick t [⟨.Countdown text D e, some du, false⟩] bus
            = on_tick t [⟨.Countdown text D e, none, false⟩] bus := by
          simp [on_tick, tickActions, action_events, heq]
        rw [show (t :: ts).dropWhile (fun x => decide (x < du)) = t :: ts from by
          simp [List.dropWhile_cons, hlt]]
        rw [runTicks, runTicks, hot]
        exact ⟨rfl, Iff.rfl⟩

/-- Bundle of the C4 properties for an armed countdown over a sorted
tick list whose every tick is at or past the gate `g`, the deadline
sitting `D` past the gate. -/
theorem countdown_run_props (text : Chars) (D e g : Nat) (bus : Bus)
    (l' : List Nat) (rs : List Nat) (hsorted : l'.Sorted (· ≤ ·))
    (hg : ∀ x ∈ l', g ≤ x) (he : e = g + D)
    (hrs : rs = countdownRemainings (attemptedEvents
      (runTicks bus [⟨.Countdown text D e, none, false⟩] l').2.2)) :
    rs.Chain' (fun x y => y ≤ x) ∧
    (∀ r ∈ rs, r ≤ D) ∧
    (∀ r ∈ rs.dropLast, 0 < r) ∧
    ((runTicks bus [⟨.Countdown text D e, none, false⟩] l').1 = []
      ↔ rs.getLast? = some 0) := by
  subst he
  obtain ⟨hform, hst⟩ := runTicks_countdown_armed text D (g + D) bus l'
  rw [hform] at hrs
  subst hrs
  rw [hst]
  have hsub := upTo_sublist (g + D) l'
  refine ⟨?_, ?_, ?_, ?_⟩
  · have hpair : List.Pairwise (fun x1 x2 : Nat => x2 ≤ x1)
        ((upTo (g + D) l').map (fun t => g + D - t)) := by
      refine List.Pairwise.map _ ?_ (List.Pairwise.sublist hsub hsorted)
      intro a b hab
      omega
    exact hpair.chain'
  · intro r hr
    obtain ⟨x, hx, rfl⟩ := List.mem_map.mp hr
    have := hg x (hsub.subset hx)
    omega
  · intro r hr
    rw [← List.map_dropLast] at hr
    obtain ⟨x, hx, rfl⟩ := List.mem_map.mp hr
    by_cases hany : l'.any (fun t => decide (g + D ≤ t)) = true
    · obtain ⟨tl, htl, hupTo⟩ := upTo_of_any (g + D) l' hany
      rw [hupTo, List.dropLast_concat] at hx
      have hpx := List.mem_takeWhile_imp hx
      have hxe : x < g + D := of_decide_eq_true hpx
      omega
    · obtain ⟨hupTo, hlt⟩ := upTo_of_not_any (g + D) l'
        (Bool.eq_false_iff.mpr hany)
      rw [hupTo] at hx
      have hxe : x < g + D := hlt x (List.dropLast_subset _ hx)
      omega
  · by_cases hany : l'.any (fun t => decide (g + D ≤ t)) = true
    · obtain ⟨tl, htl, hupTo⟩ := upTo_of_any (g + D) l' hany
      rw [if_pos hany, hupTo, List.map_append]
      have hz : g + D - tl = 0 := by omega
      simp [hz, List.getLast?_concat]
    · obtain ⟨hupTo, hlt⟩ := upTo_of_not_any (g + D) l'
        (Bool.eq_false_iff.mpr hany)
      rw [if_neg hany, hupTo]
      constructor
      · intro hc
        exact absurd hc (by simp)
      · intro hc
        have := List.mem_of_mem_getLast? hc
        obtain ⟨x, hx, hx0⟩ := List.mem_map.mp this
        have := hlt x hx
        omega

/-! ## Claim C4 -/

/-- Claim C4 (confirmed): for a `Countdown` action of duration `D`
(delay `d`, possibly absent) fired at `t0`, over any monotone tick run
occurring after `t0` the emitted `Countdown` remaining values are
non-increasing in observation order, every one of them is at most `D`,
every non-final one is positive, and the action is finished (dropped
from the active list) exactly when the run's final emitted remaining
value is `0` — so the final event of a completed countdown carries
remaining exactly `0`, never negative (`Instant` subtraction
saturates). -/
theorem claimC4 (t0 : Nat) (caps : Captures) (text : Chars) (D : Nat)
    (delay : Option Nat) (ticks : List Instant) (bus : Bus) (a : Action)
    (rs : List Nat)
    (ha : a = Action.new t0 caps (.Countdown text D delay))
    (hsorted : ticks.Sorted (· ≤ ·))
    (hmono : ∀ t ∈ ticks, t0 ≤ t)
    (hrs : rs = countdownRemainings
      (attemptedEvents (runTicks bus [a] ticks).2.2)) :
    rs.Chain' (fun x y => y ≤ x) ∧
    (∀ r ∈ rs, r ≤ D) ∧
    (∀ r ∈ rs.dropLast, 0 < r) ∧
    ((runTicks bus [a] ticks).1 = [] ↔ rs.getLast? = some 0) := by
  subst ha hrs
  cases delay with
  | none =>
      have ha' : Action.new t0 caps (.Countdown text D none)
          = ⟨.Countdown (caps.expand text) D (t0 + D), none, false⟩ := rfl
      rw [ha']
      exact countdown_run_props (caps.expand text) D (t0 + D) t0 bus ticks _
        hsorted hmono rfl rfl
  | some d =>
      have ha' : Action.new t0 caps (.Countdown text D (some d))
          = ⟨.Countdown (caps.expand text) D (t0 + D + d), some (t0 + d),
             false⟩ := rfl
      rw [ha']
      obtain ⟨houts, hiff⟩ := runTicks_countdown_delayed (caps.expand text) D
        (t0 + D + d) (t0 + d) bus ticks
      rw [houts, hiff]
      refine countdown_run_props (caps.expand text) D (t0 + D + d) (t0 + d) bus
        (ticks.dropWhile (fun x => decide (x < t0 + d))) _ ?_ ?_ (by omega) rfl
      · exact List.Pairwise.sublist (List.dropWhile_sublist _) hsorted
      · exact dropWhile_lt_ge (t0 + d) ticks hsorted

/-- Witness for C4: the countdown fired at `10` with duration `5` and
delay `2` over the sorted ticks `[10, 11, 12, 14, 16, 17]` (all past
the firing instant) emits the non-increasing remaining values
`[5, 3, 1, 0]`, and having emitted a final `0` it is gone from the
active list. -/
theorem claimC4_witness :
    countdownRemainings (attemptedEvents
        (runTicks driverEventBus
          [Action.new 10 [] (.Countdown "Respawn".toList 5 (some 2))]
          [10, 11, 12, 14, 16, 17]).2.2) = [5, 3, 1, 0] ∧
    (runTicks driverEventBus
        [Action.new 10 [] (.Countdown "Respawn".toList 5 (some 2))]
        [10, 11, 12, 14, 16, 17]).1 = [] := by
  have h := claimC4 10 [] "Respawn".toList 5 (some 2) [10, 11, 12, 14, 16, 17]
    driverEventBus _ _ rfl (by decide) (by decide) rfl
  have hrs : countdownRemainings (attemptedEvents
      (runTicks driverEventBus
        [Action.new 10 [] (.Countdown "Respawn".toList 5 (some 2))]
        [10, 11, 12, 14, 16, 17]).2.2) = [5, 3, 1, 0] := by decide
  exact ⟨hrs, h.2.2.2.mpr (by rw [hrs]; rfl)⟩


/-! ## Association-list lemmas for the trigger compiler -/

/-- A key not among an association list's keys looks up to nothing. -/
theorem alistGet_eq_none {κ α : Type} [DecidableEq κ]
    (m : List (κ × α)) (k : κ) (h : k ∉ m.map Prod.fst) :
    alistGet m k = none := by
  induction m with
  | nil => rfl
  | cons p rest ih =>
      obtain ⟨k', v⟩ := p
      simp only [List.map_cons, List.mem_cons] at h
      push_neg at h
      simp only [alistGet]
      rw [if_neg (fun hc => h.1 hc.symm)]
      exact ih h.2

/-- Pushing onto an entry appends to that entry's vector. -/
theorem alistGet_alistPush_self {κ α : Type} [DecidableEq κ]
    (m : List (κ × List α)) (k : κ) (v : α) :
    alistGet (alistPush m k v) k = some ((alistGet m k).getD [] ++ [v]) := by
  induction m with
  | nil => simp [alistPush, alistGet]
  | cons p rest ih =>
      obtain ⟨k', l⟩ := p
      by_cases h : k' = k
      · subst h
        simp [alistPush, alistGet]
      · simp only [alistPush, if_neg h, alistGet]
        exact ih

/-- Pushing onto an entry leaves the other entries' lookups alone. -/
theorem alistGet_alistPush_other {κ α : Type} [DecidableEq κ]
    (m : List (κ × List α)) (k k' : κ) (v : α) (hne : k' ≠ k) :
    alistGet (alistPush m k v) k' = alistGet m k' := by
  induction m with
  | nil =>
      simp only [alistPush, alistGet]
      rw [if_neg (fun hc => hne hc.symm)]
  | cons p rest ih =>
      obtain ⟨k'', l⟩ := p
      by_cases h : k'' = k
      · subst h
        simp only [alistPush, if_pos rfl, alistGet]
        rw [if_neg (fun hc => hne hc.symm), if_neg (fun hc => hne hc.symm)]
      · simp only [alistPush, if_neg h, alistGet]
        by_cases h2 : k'' = k'
        · rw [if_pos h2, if_pos h2]
        · rw [if_neg h2, if_neg h2]
          exact ih

/-- The character loop of `Triggers::load` does not touch the entries
of a character id absent from the visited character list. -/
theorem compileForCharacters_absent (engine : RegexEngine)
    (src : TriggerSource) (tid : String) (t : Trigger)
    (chars : List (CharacterId × Character))
    (comp : List (CharacterId × List CompiledTrigger))
    (filt : List (CharacterId × List Chars))
    (st' : List (CharacterId × List CompiledTrigger) × List (CharacterId × List Chars))
    (h : compileForCharacters engine src tid t chars (comp, filt) = some st')
    (cid : CharacterId) (hc : alistGet chars cid = none) :
    alistGet st'.1 cid = alistGet comp cid ∧
    alistGet st'.2 cid = alistGet filt cid := by
  induction chars generalizing comp filt with
  | nil =>
      simp only [compileForCharacters] at h
      obtain rfl := Option.some.inj h
      exact ⟨rfl, rfl⟩
  | cons p rest ih =>
      obtain ⟨k, ch⟩ := p
      have hk : ¬ k = cid := by
        intro hkc
        simp [alistGet, hkc] at hc
      have hrest : alistGet rest cid = none := by
        simpa [alistGet, hk] using hc
      simp only [compileForCharacters] at h
      by_cases hdis : (TriggerRef.mk src tid) ∈ ch.disabled_triggers
      · rw [if_pos hdis] at h
        exact ih comp filt h hrest
      · rw [if_neg hdis] at h
        cases hnew : CompiledTrigger.new engine ch t with
        | none =>
            rw [hnew] at h
            simp at h
        | some ct =>
            rw [hnew] at h
            obtain ⟨h1, h2⟩ := ih _ _ h hrest
            rw [h1, h2]
            exact ⟨alistGet_alistPush_other comp k cid ct (fun hc' => hk hc'.symm),
              alistGet_alistPush_other filt k cid t.search_text
                (fun hc' => hk hc'.symm)⟩

/-- The character loop of `Triggers::load`, seen from one character
`cid` present in the (duplicate-free) character list: it appends one
compiled trigger for `(cid, t)` — and the trigger's pattern — exactly
when `cid` has not disabled `(src, tid)`. -/
theorem compileForCharacters_get (engine : RegexEngine)
    (src : TriggerSource) (tid : String) (t : Trigger)
    (chars : List (CharacterId × Character))
    (comp : List (CharacterId × List CompiledTrigger))
    (filt : List (CharacterId × List Chars))
    (st' : List (CharacterId × List CompiledTrigger) × List (CharacterId × List Chars))
    (h : compileForCharacters engine src tid t chars (comp, filt) = some st')
    (cid : CharacterId) (c : Character)
    (hc : alistGet chars cid = some c)
    (hnd : (chars.map Prod.fst).Nodup) :
    ((alistGet st'.1 cid).getD []).map ctProj
      = ((alistGet comp cid).getD []).map ctProj
        ++ (if (TriggerRef.mk src tid) ∈ c.disabled_triggers then []
            else [(c, t)]) ∧
    (alistGet st'.2 cid).getD []
      = (alistGet filt cid).getD []
        ++ (if (TriggerRef.mk src tid) ∈ c.disabled_triggers then []
            else [t.search_text]) := by
  induction chars generalizing comp filt with
  | nil => simp [alistGet] at hc
  | cons p rest ih =>
      obtain ⟨k, ch⟩ := p
      simp only [List.map_cons, List.nodup_cons] at hnd
      simp only [compileForCharacters] at h
      by_cases hk : k = cid
      · subst hk
        have hch : ch = c := by
          simpa [alistGet] using hc
        subst hch
        have hrest : alistGet rest k = none := alistGet_eq_none rest k hnd.1
        by_cases hdis : (TriggerRef.mk src tid) ∈ ch.disabled_triggers
        · rw [if_pos hdis] at h
          obtain ⟨h1, h2⟩ := compileForCharacters_absent engine src tid t rest
            comp filt st' h k hrest
          rw [h1, h2, if_pos hdis, if_pos hdis]
          simp
        · rw [if_neg hdis] at h
          cases hnew : CompiledTrigger.new engine ch t with
          | none =>
              rw [hnew] at h
              simp at h
          | some ct =>
              rw [hnew] at h
              have hproj : ctProj ct = (ch, t) := by
                obtain ⟨r, hr, hct⟩ := Option.map_eq_some'.mp hnew
                rw [← hct]
                rfl
              obtain ⟨h1, h2⟩ := compileForCharacters_absent engine src tid t
                rest _ _ st' h k hrest
              rw [h1, h2, alistGet_alistPush_self, alistGet_alistPush_self,
                if_neg hdis, if_neg hdis]
              constructor
              · simp [List.map_append, hproj]
              · simp
      · have hc' : alistGet rest cid = some c := by
          simpa [alistGet, hk] using hc
        by_cases hdis : (TriggerRef.mk src tid) ∈ ch.disabled_triggers
        · rw [if_pos hdis] at h
          exact ih comp filt h hc' hnd.2
        · rw [if_neg hdis] at h
          cases hnew : CompiledTrigger.new engine ch t with
          | none =>
              rw [hnew] at h
              simp at h
          | some ct =>
              rw [hnew] at h
              obtain ⟨h1, h2⟩ := ih _ _ h hc' hnd.2
              rw [h1, h2,
                alistGet_alistPush_other comp k cid ct (fun hc' => hk hc'.symm),
                alistGet_alistPush_other filt k cid t.search_text
                  (fun hc' => hk hc'.symm)]
              exact ⟨rfl, rfl⟩

/-- The trigger loop of `Triggers::load`, seen from one character `cid`:
across the trigger set, it appends exactly the compiled triggers — and
patterns — of the triggers not disabled by `cid`, in trigger order. -/
theorem compileTriggers_get (engine : RegexEngine) (src : TriggerSource)
    (chars : List (CharacterId × Character))
    (trgs : List (String × Trigger))
    (comp : List (CharacterId × List CompiledTrigger))
    (filt : List (CharacterId × List Chars))
    (st' : List (CharacterId × List CompiledTrigger) × List (CharacterId × List Chars))
    (h : compileTriggers engine src chars trgs (comp, filt) = some st')
    (cid : CharacterId) (c : Character)
    (hc : alistGet chars cid = some c)
    (hnd : (chars.map Prod.fst).Nodup) :
    ((alistGet st'.1 cid).getD []).map ctProj
      = ((alistGet comp cid).getD []).map ctProj
        ++ (trgs.filter (fun p =>
            !decide ((TriggerRef.mk src p.1) ∈ c.disabled_triggers))).map
              (fun p => (c, p.2)) ∧
    (alistGet st'.2 cid).getD []
      = (alistGet filt cid).getD []
        ++ (trgs.filter (fun p =>
            !decide ((TriggerRef.mk src p.1) ∈ c.disabled_triggers))).map
              (fun p => p.2.search_text) := by
  induction trgs generalizing comp filt with
  | nil =>
      simp only [compileTriggers] at h
      obtain rfl := Option.some.inj h
      simp
  | cons p rest ih =>
      obtain ⟨tid, t⟩ := p
      simp only [compileTriggers] at h
      cases hstep : compileForCharacters engine src tid t chars (comp, filt) with
      | none =>
          rw [hstep] at h
          simp at h
      | some st1 =>
          rw [hstep] at h
          obtain ⟨c1, f1⟩ := st1
          obtain ⟨s1, s2⟩ := compileForCharacters_get engine src tid t chars
            comp filt (c1, f1) hstep cid c hc hnd
          obtain ⟨r1, r2⟩ := ih c1 f1 h
          rw [r1, r2, s1, s2]
          by_cases hdis : (TriggerRef.mk src tid) ∈ c.disabled_triggers
          · rw [if_pos hdis, if_pos hdis]
            simp [List.filter_cons, hdis]
          · rw [if_neg hdis, if_neg hdis]
            simp [List.filter_cons, hdis]

/-! ## Claim C9 -/

/-- Claim C9 (confirmed): at configuration load, for every character
`cid` of the (duplicate-free) snapshot and the local trigger set, the
compiled triggers of `cid` are exactly one `CompiledTrigger` per
trigger not disabled by `cid` (in trigger order), the prefilter
patterns of `cid` are exactly those triggers' patterns, and therefore a
line matching no enabled pattern — in particular one matching only a
disabled trigger — is rejected by `cid`'s prefilter, so the tailer
sends no `LogEvent` for it and it produces no events for that
character. -/
theorem claimC9 (engine : RegexEngine) (src : TriggerSource)
    (trgs : List (String × Trigger))
    (characters : List (CharacterId × Character)) (T : Triggers)
    (cid : CharacterId) (c : Character)
    (hload : Triggers.load engine (some ⟨src, trgs⟩) characters = some T)
    (hc : alistGet characters cid = some c)
    (hnd : (characters.map Prod.fst).Nodup) :
    ((T.compiledFor cid).getD []).map ctProj
      = (trgs.filter (fun p =>
          !decide ((TriggerRef.mk src p.1) ∈ c.disabled_triggers))).map
            (fun p => (c, p.2)) ∧
    (alistGet T.filters cid).getD []
      = (trgs.filter (fun p =>
          !decide ((TriggerRef.mk src p.1) ∈ c.disabled_triggers))).map
            (fun p => p.2.search_text) ∧
    (∀ line, (∀ p ∈ trgs, (TriggerRef.mk src p.1) ∉ c.disabled_triggers →
        ((engine.compile p.2.search_text).map
          (fun r => (r.captures line).isSome)).getD false = false) →
      Triggers.filter engine T cid line = false) ∧
    (∀ (pd : Chars → Option Nat) (nd : Nat) (id : String) (buffer : Chars)
        (dstr m : Chars),
      parse_raw_line buffer = some (dstr, m) →
      Triggers.filter engine T cid m = false →
      handleLine pd nd (Triggers.filter engine T cid) id buffer = []) := by
  simp only [Triggers.load] at hload
  cases hcomp : compileTriggers engine src characters trgs ([], []) with
  | none =>
      rw [hcomp] at hload
      simp at hload
  | some st' =>
      rw [hcomp] at hload
      obtain ⟨comp, filt⟩ := st'
      obtain rfl := Option.some.inj hload
      obtain ⟨g1, g2⟩ := compileTriggers_get engine src characters trgs [] []
        (comp, filt) hcomp cid c hc hnd
      simp only [alistGet, Option.getD_none, List.map_nil, List.nil_append] at g1 g2
      refine ⟨g1, g2, ?_, ?_⟩
      · intro line hnomatch
        simp only [Triggers.filter, Triggers.compiledFor]
        cases hf : alistGet filt cid with
        | none => rfl
        | some ps =>
            have hps : ps = (trgs.filter (fun p =>
                !decide ((TriggerRef.mk src p.1) ∈ c.disabled_triggers))).map
                  (fun p => p.2.search_text) := by
              rw [← g2, hf]
              rfl
            subst hps
            simp only [regexSetIsMatch]
            rw [List.any_eq_false]
            intro pat hpat
            obtain ⟨p, hp, rfl⟩ := List.mem_map.mp hpat
            obtain ⟨hptrgs, hpen⟩ := List.mem_filter.mp hp
            have hen : (TriggerRef.mk src p.1) ∉ c.disabled_triggers := by
              simpa using hpen
            rw [hnomatch p hptrgs hen]
            simp
      · intro pd nd id buffer dstr m hparse hfilt
        simp [handleLine, hparse, hfilt]

/-- Witness for C9: with the toy engine, the single local trigger `T1`
and the two characters, `B` (which disabled `(Local, T1)`) gets no
compiled trigger and no pattern while `A` gets exactly one of each, and
`B`'s prefilter rejects the line matching only `T1`. -/
theorem claimC9_witness :
    ((TW.compiledFor "B").getD []).map ctProj = [] ∧
    (alistGet TW.filters "B").getD [] = [] ∧
    ((TW.compiledFor "A").getD []).map ctProj = [(chA, t1W)] ∧
    (alistGet TW.filters "A").getD [] = ["pat".toList] ∧
    Triggers.filter litEngine TW "B" "pat".toList = false := by
  have hB := claimC9 litEngine .Local [("T1", t1W)] charsW TW "B" chB rfl rfl
    (by decide)
  have hA := claimC9 litEngine .Local [("T1", t1W)] charsW TW "A" chA rfl rfl
    (by decide)
  refine ⟨?_, ?_, ?_, ?_, ?_⟩
  · rw [hB.1]
    rfl
  · rw [hB.2.1]
    rfl
  · rw [hA.1]
    rfl
  · rw [hA.2.1]
    rfl
  · refine hB.2.2.1 "pat".toList ?_
    intro p hp hen
    rcases List.mem_cons.mp hp with rfl | hp'
    · exact absurd (by decide) hen
    · exact absurd hp' (List.not_mem_nil p)

/-! ## Claim C3 -/

/-- Counterexample to C3: character `B` disabled `T1`, so the snapshot
compiles no trigger at all for `B` (`compiledFor "B" = none`), yet on a
log event for `B` the driver — which iterates every compiled trigger in
the snapshot, not just `B`'s — runs `A`'s compiled `T1` and emits a
`Triggered` event naming character `A` (plus its `DisplayText`); under
the claim, iterating exactly `B`'s compiled triggers, no event could be
produced. -/
theorem claimC3_counterexample :
    Triggers.compiledFor TW "B" = none ∧
    alistGet cfgW.characters "B" = some chB ∧
    attemptedEvents (on_log_event cfgW 5 [] driverEventBus evB).2.2
      = [Event.new 5 (.Triggered chA t1W evB),
         Event.new 5 (.DisplayText "hit".toList)] := by
  refine ⟨rfl, rfl, rfl⟩

/-- `sendAll` with room for every event delivers them all in order. -/
theorem sendAll_room (bus : Bus) (evs : List Event)
    (hconn : bus.connected = true)
    (hroom : bus.queue.length + evs.length ≤ bus.capacity) :
    sendAll bus evs = ({ bus with queue := bus.queue ++ evs },
      evs.map (fun e => (e, SendOutcome.delivered))) := by
  induction evs generalizing bus with
  | nil =>
      obtain ⟨cap, q, conn⟩ := bus
      simp [sendAll]
  | cons e rest ih =>
      have hr : bus.queue.length < bus.capacity := by
        simp only [List.length_cons] at hroom
        omega
      have hlen : (bus.queue ++ [e]).length = bus.queue.length + 1 := by
        simp
      have ih' := ih { bus with queue := bus.queue ++ [e] }
        (by simpa using hconn)
        (by
          simp only [List.length_cons] at hroom
          simp only [hlen]
          omega)
      simp only [sendAll, Bus.send_room bus e hconn hr]
      rw [ih']
      simp [List.append_assoc]

/-- `action_events` with room: the ready events land on the queue. -/
theorem action_events_room (now : Instant) (bus : Bus) (a : Action)
    (hconn : bus.connected = true)
    (hroom : bus.queue.length + (((a.events now).1).getD []).length
      ≤ bus.capacity) :
    action_events now bus a =
      ({ bus with queue := bus.queue ++ ((a.events now).1).getD [] },
       (a.events now).2,
       (((a.events now).1).getD []).map (fun e => (e, SendOutcome.delivered))) := by
  rcases hev : a.events now with ⟨oevs, a'⟩
  cases oevs with
  | none =>
      obtain ⟨cap, q, conn⟩ := bus
      simp [action_events, hev]
  | some evs =>
      rw [hev] at hroom
      simp only [Option.getD_some] at hroom
      simp [action_events, hev, sendAll_room bus evs hconn hroom]

/-- The produced-action loop of `on_log_event` with room: each action's
ready events are drained in order and only unfinished actions are
kept. -/
theorem driveActions_room (now : Instant) (bus : Bus) (acts : List Action)
    (hconn : bus.connected = true)
    (hroom : bus.queue.length + (emitListOf now acts).length ≤ bus.capacity) :
    driveActions now bus acts =
      (keptOf now acts,
       { bus with queue := bus.queue ++ emitListOf now acts },
       (emitListOf now acts).map (fun e => (e, SendOutcome.delivered))) := by
  induction acts generalizing bus with
  | nil =>
      obtain ⟨cap, q, conn⟩ := bus
      simp [driveActions, emitListOf, keptOf]
  | cons a rest ih =>
      have hsplit : emitListOf now (a :: rest)
          = ((a.events now).1).getD [] ++ emitListOf now rest := by
        simp [emitListOf, List.flatMap_cons]
      rw [hsplit] at hroom
      simp only [List.length_append] at hroom
      rw [driveActions, action_events_room now bus a hconn (by omega)]
      have ih' := ih { bus with queue := bus.queue ++ ((a.events now).1).getD [] }
        (by simpa using hconn)
        (by simp only [List.length_append]; omega)
      rw [ih']
      simp only [hsplit]
      refine congrArg₂ _ ?_ (congrArg₂ _ ?_ ?_)
      · simp only [keptOf, List.map_cons, List.filter_cons]
        cases hfin : (a.events now).2.finished <;> simp [hfin, keptOf]
      · simp [List.append_assoc]
      · simp [List.map_append]

/-- The trigger loop of `on_log_event` with room: across every compiled
trigger, the drained events are `triggerEmissions` and the appended
actions `keptTriggerActions`. -/
theorem driveTriggers_room (now : Instant) (matched : LogEvent) (bus : Bus)
    (cts : List CompiledTrigger)
    (hconn : bus.connected = true)
    (hroom : bus.queue.length + (triggerEmissions now matched cts).length
      ≤ bus.capacity) :
    driveTriggers now matched bus cts =
      (keptTriggerActions now matched cts,
       { bus with queue := bus.queue ++ triggerEmissions now matched cts },
       (triggerEmissions now matched cts).map
         (fun e => (e, SendOutcome.delivered))) := by
  induction cts generalizing bus with
  | nil =>
      obtain ⟨cap, q, conn⟩ := bus
      simp [driveTriggers, triggerEmissions, keptTriggerActions]
  | cons ct rest ih =>
      cases hex : ct.execute now matched with
      | none =>
          have hsplit : triggerEmissions now matched (ct :: rest)
              = triggerEmissions now matched rest := by
            simp [triggerEmissions, List.flatMap_cons, hex]
          have hkept : keptTriggerActions now matched (ct :: rest)
              = keptTriggerActions now matched rest := by
            simp [keptTriggerActions, List.flatMap_cons, hex]
          rw [hsplit] at hroom
          simp only [driveTriggers, hex]
          rw [ih bus hconn hroom, hsplit, hkept]
      | some acts =>
          have hsplit : triggerEmissions now matched (ct :: rest)
              = emitListOf now acts ++ triggerEmissions now matched rest := by
            simp [triggerEmissions, List.flatMap_cons, hex]
          have hkept : keptTriggerActions now matched (ct :: rest)
              = keptOf now acts ++ keptTriggerActions now matched rest := by
            simp [keptTriggerActions, List.flatMap_cons, hex]
          rw [hsplit] at hroom
          simp only [List.length_append] at hroom
          simp only [driveTriggers, hex]
          rw [driveActions_room now bus acts hconn (by omega)]
          have ih' := ih { bus with queue := bus.queue ++ emitListOf now acts }
            (by simpa using hconn)
            (by simp only [List.length_append]; omega)
          rw [ih', hsplit, hkept]
          refine congrArg₂ _ rfl (congrArg₂ _ ?_ ?_)
          · simp [List.append_assoc]
          · simp [List.map_append]

/-- Claim C3 as amended: a log event whose character id is absent from
the snapshot is dropped (no actions, no sends); otherwise the driver
iterates *every compiled trigger in the snapshot* — not only the
event's character's; per-character filtering is an explicit TODO in the
source — and for each match drains each produced action's ready events
onto the bus, appending to `active_actions` only the actions not yet
finished. -/
theorem claimC3_amended (cfg : Config) (now : Instant) (st : List Action)
    (bus : Bus) (matched : LogEvent) :
    (alistGet cfg.characters matched.id = none →
      on_log_event cfg now st bus matched = (st, bus, [])) ∧
    (∀ c, alistGet cfg.characters matched.id = some c →
      bus.connected = true →
      bus.queue.length
          + (triggerEmissions now matched (allCompiled cfg.triggers)).length
        ≤ bus.capacity →
      on_log_event cfg now st bus matched =
        (st ++ keptTriggerActions now matched (allCompiled cfg.triggers),
         { bus with queue := bus.queue
            ++ triggerEmissions now matched (allCompiled cfg.triggers) },
         (triggerEmissions now matched (allCompiled cfg.triggers)).map
           (fun e => (e, SendOutcome.delivered)))) := by
  constructor
  · intro h
    simp [on_log_event, h]
  · intro c hc hconn hroom
    simp only [on_log_event, hc]
    rw [driveTriggers_room now matched bus (allCompiled cfg.triggers) hconn hroom]

/-- Witness for the amended C3: the event for the unknown id `Z` is
dropped whole, and the event for `B` — with room on the fresh bus —
runs the snapshot's single compiled trigger (compiled for `A`), sends
its two events, and keeps nothing (both produced actions finish on
their first drain). -/
theorem claimC3_witness :
    on_log_event cfgW 5 [] driverEventBus evZ = ([], driverEventBus, []) ∧
    on_log_event cfgW 5 [] driverEventBus evB =
      ([] ++ keptTriggerActions 5 evB (allCompiled cfgW.triggers),
       { driverEventBus with queue := driverEventBus.queue
          ++ triggerEmissions 5 evB (allCompiled cfgW.triggers) },
       (triggerEmissions 5 evB (allCompiled cfgW.triggers)).map
         (fun e => (e, SendOutcome.delivered))) := by
  have h := claimC3_amended cfgW 5 [] driverEventBus evZ
  have h2 := claimC3_amended cfgW 5 [] driverEventBus evB
  exact ⟨h.1 rfl, h2.2 chB rfl rfl (by decide)⟩

end Comrade
